import Mathlib

/-!
Verification of the core of `smart_traffic_core.py` (SmartTrafficRouteOptimizer):
a weighted directed graph with adjacency lists, Dijkstra's algorithm, A* search,
and predecessor-based path reconstruction.

Edge weights and coordinates are embedded as rationals (the Python code uses
floats; the spec-level semantics is exact real/rational arithmetic).  The A*
development is generic over a linear ordered field `K` of heuristic values, so
that it can be instantiated both at `ℚ` (for executable witnesses) and at `ℝ`
(for the source's Euclidean heuristic, which involves square roots).

Python's unbounded `while` loops are embedded as fuel-indexed loops; divergence
of the source loop corresponds to the embedded loop returning its out-of-fuel
marker at every fuel.
-/

attribute [local semireducible] Rat.add Rat.mul Rat.sub Rat.inv Rat.ofScientific

/-- Decidable equality of `Except` results (needed to evaluate embedded Python
calls in witnesses). -/
instance {e a : Type} [DecidableEq e] [DecidableEq a] : DecidableEq (Except e a) := fun x y =>
  match x, y with
  | .ok v, .ok w =>
    if h : v = w then .isTrue (by rw [h]) else .isFalse (by intro hc; cases hc; exact h rfl)
  | .ok _, .error _ => .isFalse (by intro hc; cases hc)
  | .error _, .ok _ => .isFalse (by intro hc; cases hc)
  | .error v, .error w =>
    if h : v = w then .isTrue (by rw [h]) else .isFalse (by intro hc; cases hc; exact h rfl)

/-- Python list indexing semantics: a negative index `i` with `-len ≤ i`
addresses `l[len + i]`; everything outside `[-len, len)` raises `IndexError`. -/
def pyIndex {α : Type} (l : List α) (i : Int) : Except String α :=
  let j : Int := if i < 0 then (l.length : Int) + i else i
  if 0 ≤ j then
    match l.get? j.toNat with
    | some a => .ok a
    | none => .error "list index out of range"
  else .error "list index out of range"

/-- Replace the `i`-th element of a list by `f` of it (used to model in-place
mutation `self.adj[u].append(...)`). -/
def listModify {α : Type} (f : α → α) : Nat → List α → List α
  | _, [] => []
  | 0, a :: as => f a :: as
  | i + 1, a :: as => a :: listModify f i as

/-- Directed edge record of `smart_traffic_core.Edge`: target node id (the
Python field is called `to`, a reserved word in Lean, embedded here as `tgt`)
and weight (travel time or distance). -/
structure Edge where
  tgt : Nat
  weight : ℚ
deriving DecidableEq

/-- Node record of `smart_traffic_core.Node`: dense id, planar coordinates and
a display name. -/
structure Node where
  id : Nat
  x : ℚ
  y : ℚ
  name : String
deriving DecidableEq

/-- Graph of `smart_traffic_core.Graph`: node list plus adjacency lists. -/
structure Graph where
  nodes : List Node
  adj : List (List Edge)
deriving DecidableEq

/-- `Graph()` constructor: empty node and adjacency storage. -/
def Graph.empty : Graph := ⟨[], []⟩

/-- `Graph.size`: number of nodes. -/
def Graph.size (g : Graph) : Nat := g.nodes.length

/-- `Graph.add_node(name, x, y)`: appends a node whose id is the current node
count, appends an empty adjacency list, and returns the new id. -/
def Graph.add_node (g : Graph) (name : String) (x y : ℚ) : Graph × Nat :=
  let node_id := g.nodes.length
  (⟨g.nodes ++ [⟨node_id, x, y, name⟩], g.adj ++ [[]]⟩, node_id)

/-- `Graph._ensure_node(i)`: raises `IndexError("node id out of range")` when
`i < 0` or `i >= len(self.nodes)`. -/
def Graph.ensure_node (g : Graph) (i : Int) : Except String Unit :=
  if i < 0 ∨ (g.nodes.length : Int) ≤ i then .error "node id out of range" else .ok ()

/-- `Graph.add_edge(u, v, w, bidir)`: checks both endpoints first, then appends
`u -> v`, and also `v -> u` with the same weight when `bidir` holds.  The
returned pair is (exception-or-unit result, state of the graph afterwards); on
an `IndexError` no mutation has happened yet, so the graph is returned as is. -/
def Graph.add_edge (g : Graph) (u v : Int) (w : ℚ) (bidir : Bool) :
    Except String Unit × Graph :=
  match g.ensure_node u with
  | .error e => (.error e, g)
  | .ok _ =>
    match g.ensure_node v with
    | .error e => (.error e, g)
    | .ok _ =>
      let g1 : Graph := ⟨g.nodes, listModify (fun l => l ++ [⟨v.toNat, w⟩]) u.toNat g.adj⟩
      if bidir then
        (.ok (), ⟨g1.nodes, listModify (fun l => l ++ [⟨u.toNat, w⟩]) v.toNat g1.adj⟩)
      else
        (.ok (), g1)

/-- `Graph.neighbors(u)`: returns `self.adj[u]` with Python list-indexing
semantics (no explicit range check in the source). -/
def Graph.neighbors (g : Graph) (u : Int) : Except String (List Edge) :=
  pyIndex g.adj u

/-- `Graph.get_node(i)`: returns `self.nodes[i]` with Python list-indexing
semantics. -/
def Graph.get_node (g : Graph) (i : Int) : Except String Node :=
  pyIndex g.nodes i

/-- Adjacency list of a node id known to be in range (total helper used by the
search algorithms, whose node arguments always come from validated entries). -/
def Graph.adjOf (g : Graph) (u : Nat) : List Edge := g.adj.getD u []

/-- Well-formedness: one adjacency list per node and all edge targets in
range.  This is the invariant the `Graph` API maintains (see the claim about
builder sequences). -/
def Graph.WF (g : Graph) : Prop :=
  g.adj.length = g.nodes.length ∧ ∀ l ∈ g.adj, ∀ e ∈ l, e.tgt < g.nodes.length

instance (g : Graph) : Decidable g.WF := by
  unfold Graph.WF; infer_instance

/-- Non-negative edge weights, the standing assumption of the shortest-path
claims. -/
def Graph.Nonneg (g : Graph) : Prop :=
  ∀ l ∈ g.adj, ∀ e ∈ l, 0 ≤ e.weight

instance (g : Graph) : Decidable g.Nonneg := by
  unfold Graph.Nonneg; infer_instance

/-- Total number of stored directed edges. -/
def Graph.edgeCount (g : Graph) : Nat := (g.adj.map List.length).sum

/-- `sample_map()`: the demo map with 6 nodes A..F and 8 bidirectional roads. -/
def sample_map : Graph :=
  let g := Graph.empty
  let gA := g.add_node "A:Station" 0 0
  let gB := gA.1.add_node "B:Market" 2 1
  let gC := gB.1.add_node "C:College" 4 0
  let gD := gC.1.add_node "D:Hospital" 1 (-2)
  let gE := gD.1.add_node "E:Mall" 3 (-2)
  let gF := gE.1.add_node "F:Airport" 6 (-1)
  let e1 := (gF.1.add_edge (gA.2 : Int) (gB.2 : Int) (11/5) true).2
  let e2 := (e1.add_edge (gA.2 : Int) (gD.2 : Int) (5/2) true).2
  let e3 := (e2.add_edge (gB.2 : Int) (gC.2 : Int) (5/2) true).2
  let e4 := (e3.add_edge (gB.2 : Int) (gE.2 : Int) 3 true).2
  let e5 := (e4.add_edge (gC.2 : Int) (gF.2 : Int) (14/5) true).2
  let e6 := (e5.add_edge (gD.2 : Int) (gE.2 : Int) (9/5) true).2
  let e7 := (e6.add_edge (gE.2 : Int) (gF.2 : Int) 3 true).2
  (e7.add_edge (gB.2 : Int) (gD.2 : Int) (17/5) true).2

example : sample_map.size = 6 := by decide
example : sample_map.WF := by decide
example : sample_map.Nonneg := by decide
example : sample_map.edgeCount = 16 := by decide

/-! ## Path reconstruction -/

/-- Result of a Python function call: normal return or a raised `IndexError`. -/
inductive PyRes where
  | ret : List Int → PyRes
  | err : PyRes
deriving DecidableEq

/-- Fuel-indexed embedding of the `while cur != -1` loop of `reconstruct_path`:
append `cur`, stop at the source, otherwise follow `parent[cur]` (with Python
indexing, which may raise).  `none` means the fuel ran out, i.e. the source
loop has not terminated within that many iterations. -/
def reconLoop (parent : List Int) (src : Int) : Nat → Int → List Int → Option PyRes
  | 0, _, _ => none
  | fuel + 1, cur, path =>
    if cur = -1 then some (.ret path)
    else
      let path' := path ++ [cur]
      if cur = src then some (.ret path')
      else
        match pyIndex parent cur with
        | .error _ => some .err
        | .ok nxt => reconLoop parent src fuel nxt path'

/-- `reconstruct_path(parent, src, dst)`: walk predecessors from `dst`,
reverse, and return `[]` unless the walk ended at `src`.  The extra `fuel`
argument makes the unbounded source loop a total function; `none` models
non-termination within `fuel` iterations. -/
def reconstruct_path (parent : List Int) (src dst : Int) (fuel : Nat) : Option PyRes :=
  match reconLoop parent src fuel dst [] with
  | none => none
  | some .err => some .err
  | some (.ret path) =>
    let p := path.reverse
    some (.ret (if p.head? = some src then p else []))

/-- Non-termination of `reconstruct_path` on given inputs: every amount of
fuel is exhausted. -/
def reconDiverges (parent : List Int) (src dst : Int) : Prop :=
  ∀ fuel, reconstruct_path parent src dst fuel = none

/-- The backward walk of `reconLoop` only ever appends to its accumulator, and
the first appended element is the starting node. -/
theorem reconLoop_ret_shape (parent : List Int) (src : Int) :
    ∀ fuel cur acc r, reconLoop parent src fuel cur acc = some (.ret r) →
      ∃ tail, r = acc ++ tail ∧ (tail = [] ∨ tail.head? = some cur) := by
  intro fuel
  induction fuel with
  | zero => intro cur acc r h; simp [reconLoop] at h
  | succ n ih =>
    intro cur acc r h
    by_cases hm1 : cur = -1
    · simp [reconLoop, hm1] at h
      exact ⟨[], by simp [h.symm], Or.inl rfl⟩
    · by_cases hsrc : cur = src
      · subst hsrc
        simp [reconLoop, hm1] at h
        exact ⟨[cur], by simp [← h], Or.inr (by simp)⟩
      · rcases hpy : pyIndex parent cur with e | nxt
        · simp [reconLoop, hm1, hsrc, hpy] at h
        · have h' : reconLoop parent src n nxt (acc ++ [cur]) = some (.ret r) := by
            simpa [reconLoop, hm1, hsrc, hpy] using h
          obtain ⟨tail, hr, _⟩ := ih nxt (acc ++ [cur]) r h'
          exact ⟨cur :: tail, by simpa using hr, Or.inr (by simp)⟩


/-- Walking the parent links of `[0]` from node `0` never terminates: the
self-loop `parent[0] = 0` is followed forever. -/
theorem reconLoop_self_cycle : ∀ fuel acc, reconLoop [0] 1 fuel 0 acc = none := by
  intro fuel
  induction fuel with
  | zero => intro acc; rfl
  | succ n ih =>
    intro acc
    have hpy : pyIndex [(0 : Int)] 0 = .ok 0 := by decide
    simp only [reconLoop, hpy]
    norm_num
    exact ih (acc ++ [0])

/-- Claim C4, counterexample: on the predecessor array `[0]`, whose links form
a self-cycle at node 0 that never reaches the source 1, `reconstruct_path`
does not terminate for any amount of fuel — the code loops forever instead of
detecting the cycle and returning an empty path. -/
theorem reconstruct_path_cycle_diverges : reconDiverges [0] 1 0 := by
  intro fuel
  unfold reconstruct_path
  rw [reconLoop_self_cycle fuel []]

/-- Claim C4 (amended): `reconstruct_path` does not detect predecessor cycles;
on a predecessor array whose links from the destination cycle without reaching
the source it loops forever (see `reconstruct_path_cycle_diverges`).  It fails
closed only for terminating walks: whenever the loop does terminate normally
without having visited the source, the function returns the empty list. -/
theorem reconstruct_path_fail_closed :
    reconDiverges [0] 1 0 ∧
      ∀ (parent : List Int) (src dst : Int) (fuel : Nat) (res : List Int),
        reconstruct_path parent src dst fuel = some (.ret res) → src ∉ res → res = [] := by
  refine ⟨reconstruct_path_cycle_diverges, ?_⟩
  intro parent src dst fuel res h hmem
  unfold reconstruct_path at h
  rcases hl : reconLoop parent src fuel dst [] with _ | r
  · rw [hl] at h; exact absurd h (by simp)
  · rcases r with path | _
    · rw [hl] at h
      simp only [Option.some.injEq, PyRes.ret.injEq] at h
      by_cases hh : path.reverse.head? = some src
      · exfalso
        rw [if_pos hh] at h
        subst h
        exact hmem (List.mem_of_mem_head? (by rw [hh]; rfl))
      · rw [if_neg hh] at h
        exact h.symm
    · rw [hl] at h; exact absurd h (by simp)

/-- Claim C4, witness: a terminating walk (parent chain `1 ↦ 0 ↦ -1` never
reaching source `2`) returns the empty path. -/
theorem reconstruct_path_fail_closed_witness :
    reconstruct_path [-1, 0] 2 1 3 = some (.ret []) ∧ ([] : List Int) = [] :=
  ⟨by decide, reconstruct_path_fail_closed.2 [-1, 0] 2 1 3 [] (by decide) (by decide)⟩

/-- Claim C7: reconstruction with `src = dst` returns the single-element path
`[src]` for every valid (non-negative) node id, independently of the
predecessor array's contents (one loop iteration is enough fuel). -/
theorem reconstruct_path_self (parent : List Int) (s : Int) (fuel : Nat)
    (hs : 0 ≤ s) (hf : 1 ≤ fuel) :
    reconstruct_path parent s s fuel = some (.ret [s]) := by
  obtain ⟨n, rfl⟩ : ∃ n, fuel = n + 1 := ⟨fuel - 1, by omega⟩
  have hm1 : s ≠ -1 := by omega
  unfold reconstruct_path
  simp [reconLoop, hm1]

/-- Claim C7, witness: with a junk predecessor array and `src = dst = 0` the
result is `[0]`. -/
theorem reconstruct_path_self_witness :
    reconstruct_path [7, -3] 0 0 1 = some (.ret [0]) :=
  reconstruct_path_self [7, -3] 0 1 (by decide) (by decide)

/-- Claim C10: a terminating `reconstruct_path` run either returns the empty
list or a list that starts at the source and ends at the destination; it never
returns a partial route. -/
theorem reconstruct_path_endpoints (parent : List Int) (src dst : Int) (fuel : Nat)
    (res : List Int) (h : reconstruct_path parent src dst fuel = some (.ret res)) :
    res = [] ∨ (res.head? = some src ∧ res.getLast? = some dst) := by
  unfold reconstruct_path at h
  rcases hl : reconLoop parent src fuel dst [] with _ | r
  · rw [hl] at h; exact absurd h (by simp)
  · rcases r with path | _
    · rw [hl] at h
      simp only [Option.some.injEq, PyRes.ret.injEq] at h
      by_cases hh : path.reverse.head? = some src
      · right
        rw [if_pos hh] at h
        obtain ⟨tail, hpath, htail⟩ := reconLoop_ret_shape parent src fuel dst [] path hl
        simp only [List.nil_append] at hpath
        subst hpath
        rcases htail with ht | ht
        · subst ht; simp at hh
        · subst h
          refine ⟨hh, ?_⟩
          rw [List.getLast?_reverse]
          exact ht
      · left
        rw [if_neg hh] at h
        exact h.symm
    · rw [hl] at h; exact absurd h (by simp)

/-- Claim C10, witness: a concrete chain `2 ↦ 1 ↦ 0 = src` reconstructs to
`[0, 1, 2]`, which starts at the source and ends at the destination. -/
theorem reconstruct_path_endpoints_witness :
    reconstruct_path [-1, 0, 1] 0 2 5 = some (.ret [0, 1, 2]) ∧
      (([0, 1, 2] : List Int) = [] ∨
        (([0, 1, 2] : List Int).head? = some 0 ∧ ([0, 1, 2] : List Int).getLast? = some 2)) :=
  ⟨by decide, reconstruct_path_endpoints [-1, 0, 1] 0 2 5 [0, 1, 2] (by decide)⟩


/-! ## Graph store claims -/

/-- Length is preserved by `listModify`. -/
theorem listModify_length {α : Type} (f : α → α) :
    ∀ (i : Nat) (l : List α), (listModify f i l).length = l.length := by
  intro i
  induction i with
  | zero => intro l; cases l <;> simp [listModify]
  | succ n ih => intro l; cases l <;> simp [listModify, ih]

/-- Pointwise description of `listModify`. -/
theorem listModify_getD {α : Type} (f : α → α) (d : α) :
    ∀ (i j : Nat) (l : List α), (listModify f i l).getD j d =
      if j = i ∧ i < l.length then f (l.getD i d) else l.getD j d := by
  intro i
  induction i with
  | zero =>
    intro j l
    cases l with
    | nil => simp [listModify]
    | cons a as =>
      cases j with
      | zero => simp [listModify]
      | succ m => simp [listModify]
  | succ n ih =>
    intro j l
    cases l with
    | nil => simp [listModify]
    | cons a as =>
      cases j with
      | zero => simp [listModify]
      | succ m =>
        simp only [listModify, List.getD_cons_succ, ih m as, List.length_cons]
        by_cases hm : m = n
        · simp [hm]
        · simp [hm]

/-- Members of a modified list are old members or the image of the modified
entry. -/
theorem listModify_mem {α : Type} (f : α → α) :
    ∀ (i : Nat) (l : List α) (x : α), x ∈ listModify f i l → x ∈ l ∨ ∃ y ∈ l, x = f y := by
  intro i
  induction i with
  | zero =>
    intro l x hx
    cases l with
    | nil => simp [listModify] at hx
    | cons a as =>
      simp only [listModify, List.mem_cons] at hx
      rcases hx with h | h
      · exact Or.inr ⟨a, by simp, h⟩
      · exact Or.inl (by simp [h])
  | succ n ih =>
    intro l x hx
    cases l with
    | nil => simp [listModify] at hx
    | cons a as =>
      simp only [listModify, List.mem_cons] at hx
      rcases hx with h | h
      · exact Or.inl (by simp [h])
      · rcases ih as x h with h' | ⟨y, hy, hxy⟩
        · exact Or.inl (by simp [h'])
        · exact Or.inr ⟨y, by simp [hy], hxy⟩

/-- Claim C5: `add_edge(u, v, w, bidir)` fails with the `IndexError`
(OutOfRange) and leaves the graph unmodified whenever `u` or `v` is not a
valid existing node id; when both ids are valid it succeeds, keeps the node
list unchanged, and appends edge `u → v` to `u`'s adjacency list — and also
`v → u` with the same weight exactly when `bidir` is true (all other
adjacency lists are untouched). -/
theorem add_edge_spec (g : Graph) (u v : Int) (w : ℚ) (b : Bool) :
    ((u < 0 ∨ (g.size : Int) ≤ u ∨ v < 0 ∨ (g.size : Int) ≤ v) →
        g.add_edge u v w b = (.error "node id out of range", g)) ∧
      ((0 ≤ u ∧ u < (g.size : Int) ∧ 0 ≤ v ∧ v < (g.size : Int)) →
        (g.add_edge u v w b).1 = .ok () ∧
          (g.add_edge u v w b).2.nodes = g.nodes ∧
          (g.add_edge u v w b).2.adj.length = g.adj.length ∧
          ∀ i : Nat,
            (g.add_edge u v w b).2.adj.getD i [] =
              (let base := g.adj.getD i [];
               let s1 := if i = u.toNat ∧ u.toNat < g.adj.length
                 then base ++ [⟨v.toNat, w⟩] else base;
               if b = true ∧ i = v.toNat ∧ v.toNat < g.adj.length
                 then s1 ++ [⟨u.toNat, w⟩] else s1)) := by
  constructor
  · intro hbad
    have hbad' : (u < 0 ∨ (g.nodes.length : Int) ≤ u) ∨ (v < 0 ∨ (g.nodes.length : Int) ≤ v) := by
      unfold Graph.size at hbad; tauto
    unfold Graph.add_edge Graph.ensure_node
    rcases hbad' with hu | hv
    · rw [if_pos hu]
    · by_cases hu : u < 0 ∨ (g.nodes.length : Int) ≤ u
      · rw [if_pos hu]
      · rw [if_neg hu, if_pos hv]
  · rintro ⟨hu0, hus, hv0, hvs⟩
    have hu : ¬(u < 0 ∨ (g.nodes.length : Int) ≤ u) := by
      unfold Graph.size at hus; omega
    have hv : ¬(v < 0 ∨ (g.nodes.length : Int) ≤ v) := by
      unfold Graph.size at hvs; omega
    unfold Graph.add_edge Graph.ensure_node
    rw [if_neg hu, if_neg hv]
    by_cases hb : b = true
    · rw [if_pos hb]
      refine ⟨rfl, rfl, by simp [listModify_length], ?_⟩
      intro i
      simp only [listModify_getD, listModify_length, hb, true_and]
      by_cases hA : i = v.toNat ∧ v.toNat < g.adj.length
      · rw [if_pos hA, if_pos hA]
        by_cases hC : i = u.toNat ∧ u.toNat < g.adj.length
        · have hB : v.toNat = u.toNat ∧ u.toNat < g.adj.length := ⟨hA.1 ▸ hC.1, hC.2⟩
          rw [if_pos hB, if_pos hC, hA.1, hB.1]
        · have hB : ¬(v.toNat = u.toNat ∧ u.toNat < g.adj.length) := by
            intro hc; exact hC ⟨hA.1.trans hc.1, hc.2⟩
          rw [if_neg hB, if_neg hC, hA.1]
      · rw [if_neg hA, if_neg hA]
        by_cases hC : i = u.toNat ∧ u.toNat < g.adj.length
        · rw [if_pos hC, if_pos hC, hC.1]
        · rw [if_neg hC, if_neg hC]
    · rw [if_neg hb]
      refine ⟨rfl, rfl, by simp [listModify_length], ?_⟩
      intro i
      have hb' : ¬(b = true ∧ i = v.toNat ∧ v.toNat < g.adj.length) := fun hc => hb hc.1
      rw [if_neg hb', listModify_getD]
      by_cases hC : i = u.toNat ∧ u.toNat < g.adj.length
      · rw [if_pos hC, if_pos hC, hC.1]
      · rw [if_neg hC, if_neg hC]

/-- Demo two-node graph used by witnesses. -/
def demo_graph2 : Graph := ((Graph.empty.add_node "a" 0 0).1.add_node "b" 1 0).1

/-- Claim C5, witness: on a two-node graph, `add_edge(5, 0)` fails leaving
the graph unchanged, and `add_edge(0, 1)` succeeds. -/
theorem add_edge_spec_witness :
    demo_graph2.add_edge 5 0 (1/2) true = (.error "node id out of range", demo_graph2) ∧
      (demo_graph2.add_edge 0 1 (1/2) true).1 = .ok () :=
  ⟨(add_edge_spec demo_graph2 5 0 (1/2) true).1 (by decide),
    ((add_edge_spec demo_graph2 0 1 (1/2) true).2 (by decide)).1⟩


/-- Demo one-node graph with a self edge, used to exhibit `neighbors` on a
negative index. -/
def demo_graph1 : Graph := ((Graph.empty.add_node "n" 0 0).1.add_edge 0 0 1 false).2

/-- Claim C6, counterexample: `neighbors(-1)` on a one-node graph does NOT
fail — Python's negative indexing silently wraps around and returns node 0's
edges, contradicting "fails with an OutOfRange error for every u < 0". -/
theorem neighbors_neg_index_no_error :
    demo_graph1.neighbors (-1) = .ok [⟨0, 1⟩] := by decide

/-- Claim C6 (amended): `neighbors(u)` returns the stored (insertion-ordered)
outgoing edge list of `u` for `0 ≤ u < N` and raises an `IndexError` for
`u ≥ N` and for `u < -N`; but for `-N ≤ u < 0` it silently returns the edges
of node `N + u` (Python negative indexing) instead of failing. -/
theorem neighbors_spec (g : Graph) (u : Int) (hlen : g.adj.length = g.size) :
    (0 ≤ u → u < (g.size : Int) → g.neighbors u = .ok (g.adj.getD u.toNat [])) ∧
      (((g.size : Int) ≤ u ∨ u < -(g.size : Int)) →
        g.neighbors u = .error "list index out of range") ∧
      (-(g.size : Int) ≤ u → u < 0 →
        g.neighbors u = .ok (g.adj.getD ((g.size : Int) + u).toNat [])) := by
  unfold Graph.neighbors pyIndex
  rw [hlen]
  refine ⟨?_, ?_, ?_⟩
  · intro h0 hlt
    rw [if_neg (show ¬u < 0 by omega), if_pos h0]
    have hnat : u.toNat < g.adj.length := by omega
    rw [List.get?_eq_getElem?, List.getElem?_eq_getElem hnat,
      List.getD_eq_getElem?_getD, List.getElem?_eq_getElem hnat]
    rfl
  · intro h
    rcases h with h | h
    · rw [if_neg (show ¬u < 0 by omega), if_pos (show (0 : Int) ≤ u by omega)]
      rw [List.get?_eq_getElem?, List.getElem?_eq_none (by omega : g.adj.length ≤ u.toNat)]
    · rw [if_pos (show u < 0 by omega), if_neg (show ¬(0 : Int) ≤ (g.size : Int) + u by omega)]
  · intro hge hlt
    rw [if_pos hlt, if_pos (show (0 : Int) ≤ (g.size : Int) + u by omega)]
    have hnat : ((g.size : Int) + u).toNat < g.adj.length := by omega
    rw [List.get?_eq_getElem?, List.getElem?_eq_getElem hnat,
      List.getD_eq_getElem?_getD, List.getElem?_eq_getElem hnat]
    rfl

/-- Claim C6, witness: in-range, wrapped and out-of-range accesses on the
demo one-node graph. -/
theorem neighbors_spec_witness :
    demo_graph1.neighbors 0 = .ok (demo_graph1.adj.getD 0 []) ∧
      demo_graph1.neighbors 3 = .error "list index out of range" :=
  ⟨(neighbors_spec demo_graph1 0 (by decide)).1 (by decide) (by decide),
    (neighbors_spec demo_graph1 3 (by decide)).2.1 (by decide)⟩


/-- Construction calls of the `Graph` API. -/
inductive BuildOp where
  | node (name : String) (x y : ℚ)
  | edge (u v : Int) (w : ℚ) (bidir : Bool)
deriving DecidableEq

/-- Apply one construction call; a raised `IndexError` makes the whole
sequence unsuccessful. -/
def applyOp (g : Graph) : BuildOp → Option Graph
  | .node name x y => some (g.add_node name x y).1
  | .edge u v w bidir =>
    match g.add_edge u v w bidir with
    | (.ok _, g') => some g'
    | (.error _, _) => none

/-- Run a sequence of construction calls from a given graph. -/
def buildFrom (g : Graph) : List BuildOp → Option Graph
  | [] => some g
  | op :: ops =>
    match applyOp g op with
    | none => none
    | some g' => buildFrom g' ops

/-- Run a sequence of construction calls from the empty graph. -/
def buildAll (ops : List BuildOp) : Option Graph := buildFrom Graph.empty ops

/-- Default node used with `List.getD` in statements. -/
def node0 : Node := ⟨0, 0, 0, ""⟩

/-- Structural invariant of claim C9: ids are the contiguous range `[0, N)`
(the i-th node record carries id `i`), adjacency storage matches the node
count, and every stored edge targets an existing node. -/
def GraphInv (g : Graph) : Prop :=
  g.adj.length = g.nodes.length ∧
    (∀ i < g.nodes.length, (g.nodes.getD i node0).id = i) ∧
    ∀ l ∈ g.adj, ∀ e ∈ l, e.tgt < g.nodes.length

instance (g : Graph) : Decidable (GraphInv g) := by
  unfold GraphInv; infer_instance

/-- `add_node` preserves the structural invariant. -/
theorem add_node_inv (g : Graph) (name : String) (x y : ℚ) (h : GraphInv g) :
    GraphInv (g.add_node name x y).1 := by
  obtain ⟨hlen, hid, htgt⟩ := h
  refine ⟨by simp [Graph.add_node, hlen], ?_, ?_⟩
  · intro i hi
    simp only [Graph.add_node, List.length_append, List.length_cons, List.length_nil] at hi
    simp only [Graph.add_node]
    by_cases hlt : i < g.nodes.length
    · rw [List.getD_append _ _ _ _ hlt]
      exact hid i hlt
    · have hieq : i = g.nodes.length := by omega
      subst hieq
      rw [List.getD_append_right _ _ _ _ (le_refl _)]
      simp
  · intro l hl e he
    simp only [Graph.add_node, List.mem_append, List.mem_cons] at hl
    rcases hl with hl | hl
    · have := htgt l hl e he
      simp only [Graph.add_node, List.length_append, List.length_cons]
      omega
    · simp only [List.not_mem_nil, or_false] at hl
      subst hl
      simp at he

/-- Successful `add_edge` preserves the structural invariant. -/
theorem add_edge_inv (g : Graph) (u v : Int) (w : ℚ) (b : Bool) (g2 : Graph)
    (h : GraphInv g) (hok : g.add_edge u v w b = (.ok (), g2)) : GraphInv g2 := by
  obtain ⟨hlen, hid, htgt⟩ := h
  by_cases hu : u < 0 ∨ (g.nodes.length : Int) ≤ u
  · unfold Graph.add_edge Graph.ensure_node at hok
    rw [if_pos hu] at hok
    cases hok
  · by_cases hv : v < 0 ∨ (g.nodes.length : Int) ≤ v
    · unfold Graph.add_edge Graph.ensure_node at hok
      rw [if_neg hu, if_pos hv] at hok
      cases hok
    · have hg2 : g2.nodes = g.nodes ∧
          (g2.adj = listModify (fun l => l ++ [⟨v.toNat, w⟩]) u.toNat g.adj ∨
            g2.adj = listModify (fun l => l ++ [⟨u.toNat, w⟩]) v.toNat
              (listModify (fun l => l ++ [⟨v.toNat, w⟩]) u.toNat g.adj)) := by
        unfold Graph.add_edge Graph.ensure_node at hok
        rw [if_neg hu, if_neg hv] at hok
        cases b with
        | false => cases hok; exact ⟨rfl, Or.inl rfl⟩
        | true => cases hok; exact ⟨rfl, Or.inr rfl⟩
      obtain ⟨hnodes, hadj⟩ := hg2
      have hutgt : u.toNat < g.nodes.length := by omega
      have hvtgt : v.toNat < g.nodes.length := by omega
      have step : ∀ (a : List (List Edge)) (t s : Nat), t < g.nodes.length →
          (∀ l ∈ a, ∀ e ∈ l, e.tgt < g.nodes.length) →
          ∀ l ∈ listModify (fun l => l ++ [⟨t, w⟩]) s a, ∀ e ∈ l, e.tgt < g.nodes.length := by
        intro a t s ht ha l hl e he
        rcases listModify_mem _ s a l hl with h2 | ⟨y, hy, hly⟩
        · exact ha l h2 e he
        · subst hly
          rcases List.mem_append.1 he with h2 | h2
          · exact ha y hy e h2
          · simp only [List.mem_singleton] at h2
            subst h2
            exact ht
      refine ⟨?_, ?_, ?_⟩
      · rcases hadj with h2 | h2 <;> rw [h2, hnodes] <;> simp [listModify_length, hlen]
      · rw [hnodes]; exact hid
      · rw [hnodes]
        rcases hadj with h2 | h2
        · rw [h2]
          exact step g.adj v.toNat u.toNat hvtgt htgt
        · rw [h2]
          exact step _ u.toNat v.toNat hutgt (step g.adj v.toNat u.toNat hvtgt htgt)

/-- Claim C9: every graph produced by a successful sequence of `add_node` and
`add_edge` calls starting from the empty graph satisfies the structural
invariant: contiguous ids `[0, N)` and all edge targets inside `[0, N)`. -/
theorem buildAll_inv (ops : List BuildOp) (g : Graph) (h : buildAll ops = some g) :
    GraphInv g := by
  have base : GraphInv Graph.empty := by decide
  have main : ∀ (l : List BuildOp) (g0 : Graph), GraphInv g0 →
      buildFrom g0 l = some g → GraphInv g := by
    intro l
    induction l with
    | nil => intro g0 h0 hb; cases hb; exact h0
    | cons op ops ih =>
      intro g0 h0 hb
      rcases hop : applyOp g0 op with _ | g1
      · rw [buildFrom, hop] at hb; cases hb
      · rw [buildFrom, hop] at hb
        apply ih g1 _ hb
        rcases op with ⟨name, x, y⟩ | ⟨u, v, w, b⟩
        · cases hop
          exact add_node_inv g0 name x y h0
        · simp only [applyOp] at hop
          rcases hok : g0.add_edge u v w b with ⟨r, g3⟩
          rcases r with e | u2
          · rw [hok] at hop; cases hop
          · rw [hok] at hop
            cases hop
            cases u2
            exact add_edge_inv g0 u v w b g1 h0 hok
  exact main ops Graph.empty base h

/-- Demo build sequence for the claim C9 witness. -/
def demo_ops : List BuildOp :=
  [.node "a" 0 0, .node "b" 1 1, .edge 0 1 2 true, .edge 1 1 0 false]

/-- Claim C9, witness: a concrete successful build sequence yields a graph
satisfying the invariant. -/
theorem buildAll_inv_witness :
    buildAll demo_ops = some ((buildAll demo_ops).getD Graph.empty) ∧
      GraphInv ((buildAll demo_ops).getD Graph.empty) :=
  ⟨by decide, buildAll_inv demo_ops _ (by decide)⟩

/-! ## Reachability and path costs -/

/-- Cost-annotated reachability: `ReachesFrom g s v c` holds when the graph
contains a directed edge path from `s` to `v` of total weight `c` (built by
appending edges at the end, mirroring the relaxation order). -/
inductive ReachesFrom (g : Graph) (s : Nat) : Nat → ℚ → Prop
  | refl : ReachesFrom g s s 0
  | tail {u : Nat} {c : ℚ} {e : Edge} :
      ReachesFrom g s u c → e ∈ g.adjOf u → ReachesFrom g s e.tgt (c + e.weight)

/-- Edges of `adjOf` live in some stored adjacency list. -/
theorem adjOf_sublists (g : Graph) (u : Nat) {e : Edge} (he : e ∈ g.adjOf u) :
    ∃ l ∈ g.adj, e ∈ l := by
  unfold Graph.adjOf at he
  by_cases hb : u < g.adj.length
  · refine ⟨g.adj.getD u [], ?_, he⟩
    rw [List.getD_eq_getElem?_getD, List.getElem?_eq_getElem hb]
    exact List.getElem_mem hb
  · rw [List.getD_eq_getElem?_getD, List.getElem?_eq_none (by omega)] at he
    simp at he

/-- Weights along stored edges are non-negative under `Graph.Nonneg`. -/
theorem weight_nonneg {g : Graph} (hNN : g.Nonneg) {u : Nat} {e : Edge}
    (he : e ∈ g.adjOf u) : 0 ≤ e.weight := by
  obtain ⟨l, hl, hel⟩ := adjOf_sublists g u he
  exact hNN l hl e hel

/-- Edge targets are in range under `Graph.WF`. -/
theorem tgt_lt_size {g : Graph} (hWF : g.WF) {u : Nat} {e : Edge}
    (he : e ∈ g.adjOf u) : e.tgt < g.size := by
  obtain ⟨l, hl, hel⟩ := adjOf_sublists g u he
  exact hWF.2 l hl e hel

/-- Path costs are non-negative when all edge weights are. -/
theorem ReachesFrom.cost_nonneg {g : Graph} (hNN : g.Nonneg) {s v : Nat} {c : ℚ}
    (h : ReachesFrom g s v c) : 0 ≤ c := by
  induction h with
  | refl => exact le_refl 0
  | tail hr he ih => exact add_nonneg ih (weight_nonneg hNN he)

/-- Transitivity: concatenating paths adds their costs. -/
theorem ReachesFrom.trans {g : Graph} {a b v : Nat} {c1 c2 : ℚ}
    (h1 : ReachesFrom g a b c1) (h2 : ReachesFrom g b v c2) :
    ReachesFrom g a v (c1 + c2) := by
  induction h2 with
  | refl => simpa using h1
  | tail hr he ih =>
    have := ReachesFrom.tail ih he
    rwa [add_assoc] at this

/-- A single stored edge is a path. -/
theorem ReachesFrom.single {g : Graph} {u : Nat} {e : Edge} (he : e ∈ g.adjOf u) :
    ReachesFrom g u e.tgt e.weight := by
  have := ReachesFrom.tail (ReachesFrom.refl (g := g) (s := u)) he
  simpa using this

/-- Reachable nodes are in range (given a well-formed graph and an in-range
start). -/
theorem ReachesFrom.lt_size {g : Graph} (hWF : g.WF) {s v : Nat} {c : ℚ}
    (hs : s < g.size) (h : ReachesFrom g s v c) : v < g.size := by
  induction h with
  | refl => exact hs
  | tail hr he ih => exact tgt_lt_size hWF he

/-- Head decomposition of a path: either trivial, or a first edge followed by
a path. -/
theorem ReachesFrom.head_cases {g : Graph} {s v : Nat} {c : ℚ}
    (h : ReachesFrom g s v c) :
    (v = s ∧ c = 0) ∨
      ∃ e ∈ g.adjOf s, ∃ c2, ReachesFrom g e.tgt v c2 ∧ c = e.weight + c2 := by
  induction h with
  | refl => exact Or.inl ⟨rfl, rfl⟩
  | tail hr he ih =>
    rename_i u c0 e
    rcases ih with ⟨rfl, rfl⟩ | ⟨e1, he1, c2, hr2, hc⟩
    · exact Or.inr ⟨e, he, 0, ReachesFrom.refl, by ring⟩
    · exact Or.inr ⟨e1, he1, c2 + e.weight, ReachesFrom.tail hr2 he, by rw [hc]; ring⟩

/-- Finite set of all stored edge weights. -/
def weightFinset (g : Graph) : Finset ℚ := (g.adj.flatten.map Edge.weight).toFinset

/-- Path costs lie in the additive submonoid generated by the edge weights. -/
theorem ReachesFrom.mem_closure {g : Graph} {s v : Nat} {c : ℚ}
    (h : ReachesFrom g s v c) :
    c ∈ AddSubmonoid.closure (weightFinset g : Set ℚ) := by
  induction h with
  | refl => exact AddSubmonoid.zero_mem _
  | tail hr he ih =>
    refine AddSubmonoid.add_mem _ ih (AddSubmonoid.subset_closure ?_)
    rename_i u c0 e
    obtain ⟨l, hl, hel⟩ := adjOf_sublists g u he
    simp only [weightFinset, Finset.coe_sort_coe, List.coe_toFinset, List.mem_map,
      List.mem_flatten, Set.mem_setOf_eq]
    exact ⟨e, ⟨l, hl, hel⟩, rfl⟩

/-! ## The priority queue -/

/-- Lexicographic comparison on `(priority, node)` pairs — `heapq` pops the
tuple-minimal entry. -/
def keyLe {K : Type} [LinearOrder K] (a b : K × Nat) : Prop :=
  a.1 < b.1 ∨ (a.1 = b.1 ∧ a.2 ≤ b.2)

instance {K : Type} [LinearOrder K] (a b : K × Nat) : Decidable (keyLe a b) := by
  unfold keyLe; infer_instance

/-- Extract the minimal entry of the heap (leftmost among ties; actual ties
cannot occur for distinct entries because of the id tie-break). -/
def popMin {K : Type} [LinearOrder K] : List (K × Nat) → Option ((K × Nat) × List (K × Nat))
  | [] => none
  | a :: rest =>
    match popMin rest with
    | none => some (a, [])
    | some (m, rest2) => if keyLe a m then some (a, rest) else some (m, a :: rest2)

/-- Popping from a non-empty heap succeeds. -/
theorem popMin_ne_none {K : Type} [LinearOrder K] (l : List (K × Nat)) :
    popMin l = none ↔ l = [] := by
  cases l with
  | nil => simp [popMin]
  | cons a rest =>
    simp only [popMin]
    rcases h : popMin rest with _ | ⟨m, rest2⟩
    · simp
    · by_cases hk : keyLe a m <;> simp [hk]

/-- The popped entry splits the heap: `l = l₁ ++ m :: l₂` with remainder
`l₁ ++ l₂`. -/
theorem popMin_split {K : Type} [LinearOrder K] :
    ∀ (l : List (K × Nat)) m r, popMin l = some (m, r) →
      ∃ l1 l2, l = l1 ++ m :: l2 ∧ r = l1 ++ l2 := by
  intro l
  induction l with
  | nil => intro m r h; simp [popMin] at h
  | cons a rest ih =>
    intro m r h
    rcases hr : popMin rest with _ | ⟨m2, rest2⟩
    · simp only [popMin, hr, Option.some.injEq, Prod.mk.injEq] at h
      obtain ⟨rfl, rfl⟩ := h
      have : rest = [] := (popMin_ne_none rest).1 hr
      subst this
      exact ⟨[], [], rfl, rfl⟩
    · by_cases hk : keyLe a m2
      · simp only [popMin, hr, if_pos hk, Option.some.injEq, Prod.mk.injEq] at h
        obtain ⟨rfl, rfl⟩ := h
        exact ⟨[], rest, rfl, rfl⟩
      · simp only [popMin, hr, if_neg hk, Option.some.injEq, Prod.mk.injEq] at h
        obtain ⟨rfl, rfl⟩ := h
        obtain ⟨l1, l2, hrest, hrest2⟩ := ih m2 rest2 hr
        exact ⟨a :: l1, l2, by simp [hrest], by simp [hrest2]⟩

/-- The popped entry has the minimal priority of the heap. -/
theorem popMin_min {K : Type} [LinearOrder K] :
    ∀ (l : List (K × Nat)) m r, popMin l = some (m, r) → ∀ x ∈ l, m.1 ≤ x.1 := by
  intro l
  induction l with
  | nil => intro m r h; simp [popMin] at h
  | cons a rest ih =>
    intro m r h x hx
    rcases hr : popMin rest with _ | ⟨m2, rest2⟩
    · simp only [popMin, hr, Option.some.injEq, Prod.mk.injEq] at h
      obtain ⟨rfl, rfl⟩ := h
      have : rest = [] := (popMin_ne_none rest).1 hr
      subst this
      simp only [List.mem_singleton] at hx
      subst hx
      exact le_refl _
    · by_cases hk : keyLe a m2
      · simp only [popMin, hr, if_pos hk, Option.some.injEq, Prod.mk.injEq] at h
        obtain ⟨rfl, rfl⟩ := h
        rcases List.mem_cons.1 hx with rfl | hx2
        · exact le_refl _
        · have h2 := ih m2 rest2 hr x hx2
          rcases hk with hk | hk
          · exact le_trans (le_of_lt hk) h2
          · exact le_trans (le_of_eq hk.1) h2
      · simp only [popMin, hr, if_neg hk, Option.some.injEq, Prod.mk.injEq] at h
        obtain ⟨rfl, rfl⟩ := h
        rcases List.mem_cons.1 hx with rfl | hx2
        · unfold keyLe at hk
          push_neg at hk
          exact hk.1
        · exact ih m2 rest2 hr x hx2


/-- The popped entry is an entry of the heap. -/
theorem popMin_mem {K : Type} [LinearOrder K] {l : List (K × Nat)} {m : K × Nat}
    {r : List (K × Nat)} (h : popMin l = some (m, r)) : m ∈ l := by
  obtain ⟨l1, l2, hl, _⟩ := popMin_split l m r h
  rw [hl]
  simp

/-- The remainder is a sublist of the heap. -/
theorem popMin_sublist {K : Type} [LinearOrder K] {l : List (K × Nat)} {m : K × Nat}
    {r : List (K × Nat)} (h : popMin l = some (m, r)) : r.Sublist l := by
  obtain ⟨l1, l2, hl, hr⟩ := popMin_split l m r h
  rw [hl, hr]
  exact List.Sublist.append_left (List.sublist_cons_self m l2) l1

/-- Remainder entries are heap entries. -/
theorem popMin_rest_mem {K : Type} [LinearOrder K] {l : List (K × Nat)} {m : K × Nat}
    {r : List (K × Nat)} (h : popMin l = some (m, r)) {x : K × Nat} (hx : x ∈ r) : x ∈ l :=
  (popMin_sublist h).mem hx

/-- Heap entries are the popped entry or remainder entries. -/
theorem popMin_mem_cases {K : Type} [LinearOrder K] {l : List (K × Nat)} {m : K × Nat}
    {r : List (K × Nat)} (h : popMin l = some (m, r)) {x : K × Nat} (hx : x ∈ l) :
    x = m ∨ x ∈ r := by
  obtain ⟨l1, l2, hl, hr⟩ := popMin_split l m r h
  subst hl hr
  rcases List.mem_append.1 hx with h1 | h1
  · exact Or.inr (List.mem_append.2 (Or.inl h1))
  · rcases List.mem_cons.1 h1 with rfl | h2
    · exact Or.inl rfl
    · exact Or.inr (List.mem_append.2 (Or.inr h2))

/-- The remainder is one entry shorter. -/
theorem popMin_length {K : Type} [LinearOrder K] {l : List (K × Nat)} {m : K × Nat}
    {r : List (K × Nat)} (h : popMin l = some (m, r)) : r.length + 1 = l.length := by
  obtain ⟨l1, l2, hl, hr⟩ := popMin_split l m r h
  subst hl hr
  simp
  omega


/-! ## A* search (generic heuristic value field) -/

/-- Mutable state of `astar`: the `gscore`, `fscore` and `parent` arrays (as
total maps from node ids, `⊤` being `math.inf` and `-1` the no-parent
sentinel) and the open heap of `(fscore, node)` entries. -/
structure AState (K : Type) where
  gscore : Nat → WithTop K
  fscore : Nat → WithTop K
  parent : Nat → Int
  heap : List (K × Nat)

/-- Relaxation of the outgoing edges of `u` (the `for e in g.neighbors(u)`
body of `astar`): when `gscore[u] + w` improves on `gscore[v]` store the new
parent, gscore and fscore and push `(fscore[v], v)`. -/
def relaxA {K : Type} [LinearOrderedField K] (h : Nat → K) (u : Nat) :
    List Edge → AState K → AState K
  | [], σ => σ
  | e :: es, σ =>
    if σ.gscore u + ((e.weight : K) : WithTop K) < σ.gscore e.tgt then
      relaxA h u es
        ⟨Function.update σ.gscore e.tgt (σ.gscore u + ((e.weight : K) : WithTop K)),
          Function.update σ.fscore e.tgt
            (σ.gscore u + ((e.weight : K) : WithTop K) + ((h e.tgt : K) : WithTop K)),
          Function.update σ.parent e.tgt (u : Int),
          σ.heap ++ [((σ.gscore u + ((e.weight : K) : WithTop K)).untop' 0 + h e.tgt, e.tgt)]⟩
    else relaxA h u es σ

/-- Fuel-indexed embedding of the `while open_heap` loop of `astar`: pop the
minimal entry, break when it is the destination (before the staleness check,
as in the source), skip stale entries, otherwise relax the popped node's
edges.  The boolean records whether the source loop has exited (destination
popped or heap exhausted) within the given fuel. -/
def astarLoop {K : Type} [LinearOrderedField K] (g : Graph) (h : Nat → K) (dst : Nat) :
    Nat → AState K → AState K × Bool
  | 0, σ => (σ, false)
  | fuel + 1, σ =>
    match popMin σ.heap with
    | none => (σ, true)
    | some ((f, u), rest) =>
      if u = dst then (⟨σ.gscore, σ.fscore, σ.parent, rest⟩, true)
      else if σ.fscore u < ((f : K) : WithTop K) then
        astarLoop g h dst fuel ⟨σ.gscore, σ.fscore, σ.parent, rest⟩
      else astarLoop g h dst fuel (relaxA h u (g.adjOf u) ⟨σ.gscore, σ.fscore, σ.parent, rest⟩)

/-- Initial `astar` state: `gscore[src] = 0`, `fscore[src] = heur(src)`, all
parents `-1`, heap `[(fscore[src], src)]`. -/
def astarInit {K : Type} [LinearOrderedField K] (h : Nat → K) (src : Nat) : AState K :=
  ⟨Function.update (fun _ => ⊤) src ((0 : K) : WithTop K),
    Function.update (fun _ => ⊤) src ((h src : K) : WithTop K),
    fun _ => -1,
    [(h src, src)]⟩

/-- Run `astar`'s loop from the initial state. -/
def astarRun {K : Type} [LinearOrderedField K] (g : Graph) (h : Nat → K)
    (src dst : Nat) (fuel : Nat) : AState K × Bool :=
  astarLoop g h dst fuel (astarInit h src)

/-- `astar(g, src, dst)`: the `(gscore, parent)` arrays of the final state,
plus the flag telling whether the loop exited within the given fuel. -/
def astar {K : Type} [LinearOrderedField K] (g : Graph) (h : Nat → K)
    (src dst : Nat) (fuel : Nat) : (List (WithTop K) × List Int) × Bool :=
  let r := astarRun g h src dst fuel
  (((List.range g.size).map r.1.gscore, (List.range g.size).map r.1.parent), r.2)

/-- `euclidean(a, b)`: straight-line distance between two nodes' coordinates
(`math.hypot`), the A* heuristic of the source. -/
noncomputable def euclidean (a b : Node) : ℝ :=
  Real.sqrt (((a.x : ℝ) - (b.x : ℝ)) ^ 2 + ((a.y : ℝ) - (b.y : ℝ)) ^ 2)

/-- The `heur` closure of `astar`: Euclidean distance from a node to the
destination. -/
noncomputable def heurOf (g : Graph) (dst : Nat) (u : Nat) : ℝ :=
  euclidean (g.nodes.getD u node0) (g.nodes.getD dst node0)

/-! ## Dijkstra -/

/-- Mutable state of `dijkstra`: distance and parent arrays plus the heap of
`(distance, node)` entries. -/
structure DState where
  dist : Nat → WithTop ℚ
  parent : Nat → Int
  heap : List (ℚ × Nat)

/-- Relaxation of the outgoing edges of `u` (the `for e in g.neighbors(u)`
body of `dijkstra`), with `d` the popped distance of `u`. -/
def relaxD (d : ℚ) (u : Nat) : List Edge → DState → DState
  | [], σ => σ
  | e :: es, σ =>
    if ((d + e.weight : ℚ) : WithTop ℚ) < σ.dist e.tgt then
      relaxD d u es
        ⟨Function.update σ.dist e.tgt ((d + e.weight : ℚ) : WithTop ℚ),
          Function.update σ.parent e.tgt (u : Int),
          σ.heap ++ [(d + e.weight, e.tgt)]⟩
    else relaxD d u es σ

/-- Fuel-indexed embedding of the `while heap` loop of `dijkstra`: pop the
minimal entry, skip it when stale (`d > dist[u]`), otherwise relax. -/
def dijkstraLoop (g : Graph) : Nat → DState → DState
  | 0, σ => σ
  | fuel + 1, σ =>
    match popMin σ.heap with
    | none => σ
    | some ((d, u), rest) =>
      if σ.dist u < ((d : ℚ) : WithTop ℚ) then dijkstraLoop g fuel ⟨σ.dist, σ.parent, rest⟩
      else dijkstraLoop g fuel (relaxD d u (g.adjOf u) ⟨σ.dist, σ.parent, rest⟩)

/-- Initial `dijkstra` state: `dist[src] = 0`, all parents `-1`, heap
`[(0, src)]`. -/
def dijkstraInit (src : Nat) : DState :=
  ⟨Function.update (fun _ => ⊤) src ((0 : ℚ) : WithTop ℚ), fun _ => -1, [(0, src)]⟩

/-- Fuel sufficient for the search loops to drain their heap on well-formed
non-negative inputs (proved below): one initial entry plus at most one pop per
node settling and per edge relaxation. -/
def searchFuel (g : Graph) : Nat := g.size + g.edgeCount + 2

/-- `dijkstra(g, src)`: runs the loop to completion (the fixed fuel is proved
sufficient for non-negative weights) and returns the `(dist, parent)` arrays. -/
def dijkstra (g : Graph) (src : Nat) : List (WithTop ℚ) × List Int :=
  let σ := dijkstraLoop g (searchFuel g) (dijkstraInit src)
  ((List.range g.size).map σ.dist, (List.range g.size).map σ.parent)


/-! ## The A* invariant -/

/-- A heap entry is non-stale when its priority equals the current fscore of
its node (stale entries are skipped by the loop). -/
def NonStale {K : Type} [LinearOrderedField K] (σ : AState K) (p : K × Nat) : Prop :=
  ((p.1 : K) : WithTop K) = σ.fscore p.2

/-- No pending work for a node: no non-stale heap entry mentions it. -/
def NoPending {K : Type} [LinearOrderedField K] (σ : AState K) (u : Nat) : Prop :=
  ∀ p ∈ σ.heap, p.2 = u → ¬NonStale σ p

/-- Core state invariant of the A* loop (heap-shrinking operations preserve
it; the edge-relaxedness condition `rel` of `AInv` is kept separate because
the final pop of the destination may discard pending work for it). -/
structure AInvCore {K : Type} [LinearOrderedField K] (g : Graph) (h : Nat → K) (src : Nat)
    (σ : AState K) : Prop where
  src0 : σ.gscore src = ((0 : K) : WithTop K)
  flink : ∀ v, σ.fscore v = σ.gscore v + ((h v : K) : WithTop K)
  gval : ∀ v, σ.gscore v = ⊤ ∨
    ∃ c : ℚ, σ.gscore v = ((c : K) : WithTop K) ∧ ReachesFrom g src v c
  gdom : ∀ v, σ.gscore v ≠ ⊤ → v < g.size
  entries : ∀ p ∈ σ.heap, p.2 < g.size ∧
    ∃ c : ℚ, ReachesFrom g src p.2 c ∧ p.1 = (c : K) + h p.2 ∧
      σ.gscore p.2 ≤ ((c : K) : WithTop K)
  fbound : ∀ p ∈ σ.heap, σ.fscore p.2 ≤ ((p.1 : K) : WithTop K)
  distinct : σ.heap.Pairwise (fun a b => a.2 = b.2 → a.1 ≠ b.1)
  parentLink : ∃ stamp : Nat → Nat, ∃ B : Nat, (∀ v, stamp v < B) ∧
    ∀ v u : Nat, σ.parent v = (u : Int) →
      u < g.size ∧ v < g.size ∧ v ≠ src ∧
      ∃ e ∈ g.adjOf u, e.tgt = v ∧
        σ.gscore u + ((e.weight : K) : WithTop K) ≤ σ.gscore v ∧
        (σ.gscore u + ((e.weight : K) : WithTop K) = σ.gscore v → stamp u < stamp v)
  parentShape : ∀ v, σ.parent v = -1 ∨ ∃ u : Nat, σ.parent v = (u : Int)
  parentNone : ∀ v, v ≠ src → (σ.parent v = -1 ↔ σ.gscore v = ⊤)
  parentSrc : σ.parent src = -1

/-- Full state invariant: the core plus edge-relaxedness — every node without
pending heap work has all its outgoing edges relaxed. -/
structure AInv {K : Type} [LinearOrderedField K] (g : Graph) (h : Nat → K) (src : Nat)
    (σ : AState K) extends AInvCore g h src σ : Prop where
  rel : ∀ u, NoPending σ u → ∀ e ∈ g.adjOf u,
    σ.gscore e.tgt ≤ σ.gscore u + ((e.weight : K) : WithTop K)

/-- The initial A* state satisfies the invariant. -/
theorem astarInit_inv {K : Type} [LinearOrderedField K] (g : Graph) (h : Nat → K)
    (src : Nat) (hsrc : src < g.size) : AInv g h src (astarInit h src) := by
  refine ⟨⟨?_, ?_, ?_, ?_, ?_, ?_, ?_, ?_, ?_, ?_, ?_⟩, ?_⟩
  · simp [astarInit]
  · intro v
    by_cases hv : v = src
    · subst hv; simp [astarInit]
    · simp [astarInit, Function.update_noteq hv]
  · intro v
    by_cases hv : v = src
    · subst hv
      exact Or.inr ⟨0, by simp [astarInit], ReachesFrom.refl⟩
    · exact Or.inl (by simp [astarInit, Function.update_noteq hv])
  · intro v hv
    by_cases hveq : v = src
    · subst hveq; exact hsrc
    · exfalso; exact hv (by simp [astarInit, Function.update_noteq hveq])
  · intro p hp
    simp only [astarInit, List.mem_singleton] at hp
    subst hp
    exact ⟨hsrc, 0, ReachesFrom.refl, by simp, by simp [astarInit]⟩
  · intro p hp
    simp only [astarInit, List.mem_singleton] at hp
    subst hp
    simp [astarInit]
  · simp [astarInit]
  · refine ⟨fun _ => 0, 1, fun v => Nat.zero_lt_one, ?_⟩
    intro v u hv
    exfalso
    simp only [astarInit] at hv
    omega
  · intro v; exact Or.inl rfl
  · intro v hv
    constructor
    · intro _
      simp [astarInit, Function.update_noteq hv]
    · intro _; rfl
  · rfl
  · intro u hu e he
    by_cases husrc : u = src
    · exfalso
      subst husrc
      exact hu (h u, u) (by simp [astarInit]) rfl (by simp [astarInit, NonStale])
    · have : (astarInit h src : AState K).gscore u = ⊤ := by
        simp [astarInit, Function.update_noteq husrc]
      rw [this]
      simp


/-- Cast arithmetic helper: rational addition under the `WithTop K` coercion. -/
theorem ratCast_add_top {K : Type} [LinearOrderedField K] (c w : ℚ) :
    (((c : K)) : WithTop K) + ((w : K) : WithTop K) = (((c + w : ℚ) : K) : WithTop K) := by
  push_cast
  rfl

/-- Removing a heap entry preserves the core invariant. -/
theorem AInvCore.pop {K : Type} [LinearOrderedField K] {g : Graph} {h : Nat → K}
    {src : Nat} {σ : AState K} (inv : AInvCore g h src σ) {p : K × Nat}
    {rest : List (K × Nat)} (hpop : popMin σ.heap = some (p, rest)) :
    AInvCore g h src ⟨σ.gscore, σ.fscore, σ.parent, rest⟩ := by
  refine ⟨inv.src0, inv.flink, inv.gval, inv.gdom, ?_, ?_, ?_, inv.parentLink,
    inv.parentShape, inv.parentNone, inv.parentSrc⟩
  · intro q hq; exact inv.entries q (popMin_rest_mem hpop hq)
  · intro q hq; exact inv.fbound q (popMin_rest_mem hpop hq)
  · exact inv.distinct.sublist (popMin_sublist hpop)

/-- Removing a stale heap entry preserves the full invariant. -/
theorem AInv.pop_stale {K : Type} [LinearOrderedField K] {g : Graph} {h : Nat → K}
    {src : Nat} {σ : AState K} (inv : AInv g h src σ) {p : K × Nat}
    {rest : List (K × Nat)} (hpop : popMin σ.heap = some (p, rest))
    (hstale : ¬NonStale σ p) :
    AInv g h src ⟨σ.gscore, σ.fscore, σ.parent, rest⟩ := by
  refine ⟨inv.toAInvCore.pop hpop, ?_⟩
  intro u hu e he
  have hnp : NoPending σ u := by
    intro q hq hq2 hns
    rcases popMin_mem_cases hpop hq with rfl | hqr
    · exact hstale hns
    · exact hu q hqr hq2 hns
  exact inv.rel u hnp e he


/-- A node whose current gscore is beaten by some path: it still has
improvements pending (such nodes are the only legal push targets). -/
def NotOpt {K : Type} [LinearOrderedField K] (g : Graph) (src : Nat) (σ : AState K)
    (v : Nat) : Prop :=
  ∃ cq : ℚ, ReachesFrom g src v cq ∧ ¬(σ.gscore v ≤ ((cq : K) : WithTop K))

/-- Master preservation lemma for the relaxation loop: starting from a state
whose core invariant holds, where the popped node `u` has gscore the cost `c`
of an actual path, relaxing any suffix of `u`'s adjacency list preserves the
core invariant, keeps `gscore u` fixed, re-establishes relaxedness, only
lowers gscores, and pushes entries only for improvable nodes other than
`u`. -/
theorem relaxA_master {K : Type} [LinearOrderedField K] (g : Graph) (h : Nat → K)
    (src : Nat) (hWF : g.WF) (hNN : g.Nonneg) (u : Nat) (hu : u < g.size) (c : ℚ)
    (hc0 : 0 ≤ c) (hreach : ReachesFrom g src u c) :
    ∀ (todo done : List Edge) (τ : AState K),
      g.adjOf u = done ++ todo →
      τ.gscore u = ((c : K) : WithTop K) →
      AInvCore g h src τ →
      (∀ w, w ≠ u → NoPending τ w → ∀ e ∈ g.adjOf w,
        τ.gscore e.tgt ≤ τ.gscore w + ((e.weight : K) : WithTop K)) →
      (∀ e ∈ done, τ.gscore e.tgt ≤ ((c : K) : WithTop K) + ((e.weight : K) : WithTop K)) →
      AInvCore g h src (relaxA h u todo τ) ∧
        (relaxA h u todo τ).gscore u = ((c : K) : WithTop K) ∧
        (∀ w, w ≠ u → NoPending (relaxA h u todo τ) w → ∀ e ∈ g.adjOf w,
          (relaxA h u todo τ).gscore e.tgt ≤
            (relaxA h u todo τ).gscore w + ((e.weight : K) : WithTop K)) ∧
        (∀ e ∈ g.adjOf u, (relaxA h u todo τ).gscore e.tgt ≤
          ((c : K) : WithTop K) + ((e.weight : K) : WithTop K)) ∧
        (∀ v, (relaxA h u todo τ).gscore v ≤ τ.gscore v) ∧
        (∃ new, (relaxA h u todo τ).heap = τ.heap ++ new ∧ new.length ≤ todo.length ∧
          ∀ p ∈ new, p.2 ≠ u ∧ NotOpt g src τ p.2 ∧
            (relaxA h u todo τ).gscore p.2 < τ.gscore p.2) ∧
        (∀ v, (relaxA h u todo τ).gscore v ≠ τ.gscore v → NotOpt g src τ v) := by
  intro todo
  induction todo with
  | nil =>
    intro done τ hsplit hgu hcore hrelO hrelD
    refine ⟨hcore, hgu, hrelO, ?_, fun v => le_refl _,
      ⟨[], by simp [relaxA], le_refl _, by simp⟩, ?_⟩
    · intro e he
      rw [hsplit, List.append_nil] at he
      exact hrelD e he
    · intro v hv; exact absurd rfl hv
  | cons e es ih =>
    intro done τ hsplit hgu hcore hrelO hrelD
    have he_adj : e ∈ g.adjOf u := by rw [hsplit]; simp
    have hw0 : 0 ≤ e.weight := weight_nonneg hNN he_adj
    have htgt : e.tgt < g.size := tgt_lt_size hWF he_adj
    have htent : τ.gscore u + ((e.weight : K) : WithTop K) =
        (((c + e.weight : ℚ) : K) : WithTop K) := by
      rw [hgu, ratCast_add_top]
    rw [relaxA]
    by_cases hlt : τ.gscore u + ((e.weight : K) : WithTop K) < τ.gscore e.tgt
    · rw [if_pos hlt]
      have htu : e.tgt ≠ u := by
        intro hq
        rw [hq, htent, hgu] at hlt
        have : c + e.weight < c := by exact_mod_cast hlt
        linarith
      have htsrc : e.tgt ≠ src := by
        intro hq
        rw [hq, htent, hcore.src0] at hlt
        have : c + e.weight < 0 := by exact_mod_cast hlt
        linarith
      have hnotop : NotOpt g src τ e.tgt :=
        ⟨c + e.weight, ReachesFrom.tail hreach he_adj, by rw [← htent]; exact not_le_of_lt hlt⟩
      have hreach' : ReachesFrom g src e.tgt (c + e.weight) := ReachesFrom.tail hreach he_adj
      have hkey : (τ.gscore u + ((e.weight : K) : WithTop K)).untop' 0 + h e.tgt =
          ((c + e.weight : ℚ) : K) + h e.tgt := by
        rw [htent, WithTop.untop'_coe]
      have hfsnew : τ.gscore u + ((e.weight : K) : WithTop K) + ((h e.tgt : K) : WithTop K) =
          ((((c + e.weight : ℚ) : K) + h e.tgt : K) : WithTop K) := by
        rw [htent]
        push_cast
        rfl
      have hmono1 : ∀ v, (Function.update τ.gscore e.tgt
          (τ.gscore u + ((e.weight : K) : WithTop K))) v ≤ τ.gscore v := by
        intro v
        by_cases hv : v = e.tgt
        · subst hv; rw [Function.update_same]; exact le_of_lt hlt
        · rw [Function.update_noteq hv]
      obtain ⟨stamp, B, hBnd, hlink⟩ := hcore.parentLink
      have hcore' : AInvCore g h src
          ⟨Function.update τ.gscore e.tgt (τ.gscore u + ((e.weight : K) : WithTop K)),
            Function.update τ.fscore e.tgt
              (τ.gscore u + ((e.weight : K) : WithTop K) + ((h e.tgt : K) : WithTop K)),
            Function.update τ.parent e.tgt (u : Int),
            τ.heap ++ [((τ.gscore u + ((e.weight : K) : WithTop K)).untop' 0 + h e.tgt,
              e.tgt)]⟩ := by
        refine ⟨?_, ?_, ?_, ?_, ?_, ?_, ?_, ?_, ?_, ?_, ?_⟩ <;> dsimp only
        · rw [Function.update_noteq (Ne.symm htsrc)]
          exact hcore.src0
        · intro v
          by_cases hv : v = e.tgt
          · subst hv
            rw [Function.update_same, Function.update_same]
          · rw [Function.update_noteq hv, Function.update_noteq hv]
            exact hcore.flink v
        · intro v
          by_cases hv : v = e.tgt
          · subst hv
            rw [Function.update_same]
            exact Or.inr ⟨c + e.weight, htent, hreach'⟩
          · rw [Function.update_noteq hv]
            exact hcore.gval v
        · intro v hv
          by_cases hveq : v = e.tgt
          · subst hveq; exact htgt
          · rw [Function.update_noteq hveq] at hv
            exact hcore.gdom v hv
        · intro p hp
          rcases List.mem_append.1 hp with hp | hp
          · obtain ⟨hps, cp, hcp, hkeyp, hgp⟩ := hcore.entries p hp
            refine ⟨hps, cp, hcp, hkeyp, ?_⟩
            by_cases hv : p.2 = e.tgt
            · rw [hv, Function.update_same]
              exact le_trans (le_of_lt hlt) (hv ▸ hgp)
            · rw [Function.update_noteq hv]
              exact hgp
          · simp only [List.mem_singleton] at hp
            subst hp
            refine ⟨htgt, c + e.weight, hreach', by rw [hkey], ?_⟩
            rw [Function.update_same, htent]
        · intro p hp
          rcases List.mem_append.1 hp with hp | hp
          · by_cases hv : p.2 = e.tgt
            · rw [hv, Function.update_same]
              have hold := hcore.fbound p hp
              rw [hv] at hold
              refine le_trans ?_ hold
              rw [hcore.flink e.tgt]
              exact add_le_add_right (le_of_lt hlt) _
            · rw [Function.update_noteq hv]
              exact hcore.fbound p hp
          · simp only [List.mem_singleton] at hp
            subst hp
            rw [Function.update_same, hfsnew, hkey]
        · rw [List.pairwise_append]
          refine ⟨hcore.distinct, by simp, ?_⟩
          intro a ha b hb
          simp only [List.mem_singleton] at hb
          subst hb
          intro hab
          have hfb := hcore.fbound a ha
          rw [hab] at hfb
          rw [hcore.flink e.tgt] at hfb
          have hlt2 : τ.gscore u + ((e.weight : K) : WithTop K) + ((h e.tgt : K) : WithTop K) <
              ((a.1 : K) : WithTop K) :=
            lt_of_lt_of_le (WithTop.add_lt_add_right (by simp) hlt) hfb
          rw [hfsnew] at hlt2
          intro hq
          rw [hq, hkey] at hlt2
          exact absurd hlt2 (by
            push_cast
            exact lt_irrefl _)
        · refine ⟨Function.update stamp e.tgt B, B + 1, ?_, ?_⟩
          · intro v
            by_cases hv : v = e.tgt
            · subst hv; rw [Function.update_same]; omega
            · rw [Function.update_noteq hv]
              exact lt_trans (hBnd v) (by omega)
          · intro v w hvw
            by_cases hv : v = e.tgt
            · subst hv
              rw [Function.update_same] at hvw
              obtain rfl : w = u := by exact_mod_cast hvw.symm
              refine ⟨hu, htgt, htsrc, e, he_adj, rfl, ?_, ?_⟩
              · rw [Function.update_noteq (Ne.symm htu), Function.update_same, hgu,
                  ratCast_add_top]
              · intro _
                rw [Function.update_noteq (Ne.symm htu), Function.update_same]
                exact hBnd _
            · rw [Function.update_noteq hv] at hvw
              obtain ⟨hws, hvs, hvsrc, e2, he2, he2t, hle, hstamp⟩ := hlink v w hvw
              refine ⟨hws, hvs, hvsrc, e2, he2, he2t, ?_, ?_⟩
              · rw [Function.update_noteq hv]
                by_cases hwe : w = e.tgt
                · subst hwe
                  rw [Function.update_same]
                  exact le_trans (add_le_add_right (le_of_lt hlt) _) hle
                · rw [Function.update_noteq hwe]
                  exact hle
              · intro heq
                by_cases hwe : w = e.tgt
                · exfalso
                  subst hwe
                  rw [Function.update_same, Function.update_noteq hv] at heq
                  have hstrict : τ.gscore u + ((e.weight : K) : WithTop K) +
                      ((e2.weight : K) : WithTop K) < τ.gscore v :=
                    lt_of_lt_of_le (WithTop.add_lt_add_right (by simp) hlt) hle
                  rw [heq] at hstrict
                  exact lt_irrefl _ hstrict
                · rw [Function.update_noteq hwe, Function.update_noteq hv] at heq
                  rw [Function.update_noteq hwe, Function.update_noteq hv]
                  exact hstamp heq
        · intro v
          by_cases hv : v = e.tgt
          · subst hv
            rw [Function.update_same]
            exact Or.inr ⟨u, rfl⟩
          · rw [Function.update_noteq hv]
            exact hcore.parentShape v
        · intro v hvsrc
          by_cases hv : v = e.tgt
          · subst hv
            rw [Function.update_same, Function.update_same]
            constructor
            · intro hq; exact absurd hq (by omega)
            · intro hq
              rw [htent] at hq
              exact absurd hq (by simp)
          · rw [Function.update_noteq hv, Function.update_noteq hv]
            exact hcore.parentNone v hvsrc
        · rw [Function.update_noteq (Ne.symm htsrc)]
          exact hcore.parentSrc
      have hrelO' : ∀ w, w ≠ u →
          NoPending ⟨Function.update τ.gscore e.tgt (τ.gscore u + ((e.weight : K) : WithTop K)),
            Function.update τ.fscore e.tgt
              (τ.gscore u + ((e.weight : K) : WithTop K) + ((h e.tgt : K) : WithTop K)),
            Function.update τ.parent e.tgt (u : Int),
            τ.heap ++ [((τ.gscore u + ((e.weight : K) : WithTop K)).untop' 0 + h e.tgt,
              e.tgt)]⟩ w →
          ∀ e2 ∈ g.adjOf w,
            (Function.update τ.gscore e.tgt (τ.gscore u + ((e.weight : K) : WithTop K))) e2.tgt ≤
              (Function.update τ.gscore e.tgt (τ.gscore u + ((e.weight : K) : WithTop K))) w +
                ((e2.weight : K) : WithTop K) := by
        intro w hwu hnp e2 he2
        by_cases hwe : w = e.tgt
        · exfalso
          apply hnp ((τ.gscore u + ((e.weight : K) : WithTop K)).untop' 0 + h e.tgt, e.tgt)
            (by simp) hwe.symm
          unfold NonStale
          dsimp only
          rw [hkey, Function.update_same, hfsnew]
        · have hnpτ : NoPending τ w := by
            intro q hq hq2 hns
            apply hnp q (by simp [hq]) hq2
            unfold NonStale at hns ⊢
            dsimp only
            rw [hq2] at hns ⊢
            rw [Function.update_noteq hwe]
            exact hns
          have := hrelO w hwu hnpτ e2 he2
          rw [Function.update_noteq hwe]
          exact le_trans (hmono1 e2.tgt) this
      have hrelD' : ∀ e2 ∈ done ++ [e],
          (Function.update τ.gscore e.tgt (τ.gscore u + ((e.weight : K) : WithTop K))) e2.tgt ≤
            ((c : K) : WithTop K) + ((e2.weight : K) : WithTop K) := by
        intro e2 he2
        rcases List.mem_append.1 he2 with he2 | he2
        · exact le_trans (hmono1 e2.tgt) (hrelD e2 he2)
        · simp only [List.mem_singleton] at he2
          subst he2
          rw [Function.update_same, htent, ratCast_add_top]
      have hgu' : (Function.update τ.gscore e.tgt
          (τ.gscore u + ((e.weight : K) : WithTop K))) u = ((c : K) : WithTop K) := by
        rw [Function.update_noteq (fun hq => htu hq.symm)]
        exact hgu
      obtain ⟨hcoreF, hguF, hrelOF, hrelUF, hmonoF, ⟨new2, hheapF, hlen2, hnewF⟩, hupdF⟩ :=
        ih (done ++ [e]) _ (by rw [hsplit]; simp) hgu' hcore' hrelO' hrelD'
      refine ⟨hcoreF, hguF, hrelOF, hrelUF, ?_, ?_, ?_⟩
      · intro v
        exact le_trans (hmonoF v) (hmono1 v)
      · refine ⟨((τ.gscore u + ((e.weight : K) : WithTop K)).untop' 0 + h e.tgt, e.tgt) :: new2,
          by rw [hheapF]; simp, Nat.succ_le_succ hlen2, ?_⟩
        intro p hp
        rcases List.mem_cons.1 hp with rfl | hp
        · refine ⟨htu, hnotop, ?_⟩
          have h1 := hmonoF e.tgt
          dsimp only at h1
          rw [Function.update_same] at h1
          exact lt_of_le_of_lt h1 hlt
        · obtain ⟨hp1, ⟨cq, hcq, hcqle⟩, hplt⟩ := hnewF p hp
          refine ⟨hp1, ⟨cq, hcq, ?_⟩, ?_⟩
          · intro hle2
            exact hcqle (le_trans (hmono1 p.2) hle2)
          · exact lt_of_lt_of_le hplt (hmono1 p.2)
      · intro v hv
        by_cases hveq : (Function.update τ.gscore e.tgt
            (τ.gscore u + ((e.weight : K) : WithTop K))) v = τ.gscore v
        · have := hupdF v (by dsimp only; rw [hveq]; exact hv)
          obtain ⟨cq, hcq, hcqle⟩ := this
          refine ⟨cq, hcq, ?_⟩
          intro hle2
          exact hcqle (by dsimp only; rw [hveq]; exact hle2)
        · by_cases hve : v = e.tgt
          · subst hve
            exact hnotop
          · exfalso
            exact hveq (Function.update_noteq hve _ _)
    · rw [if_neg hlt]
      have hD : ∀ e2 ∈ done ++ [e],
          τ.gscore e2.tgt ≤ ((c : K) : WithTop K) + ((e2.weight : K) : WithTop K) := by
        intro e2 he2
        rcases List.mem_append.1 he2 with he2 | he2
        · exact hrelD e2 he2
        · simp only [List.mem_singleton] at he2
          subst he2
          rw [← hgu]
          exact le_of_not_lt hlt
      obtain ⟨h1, h2, h3, h4, h5, ⟨new2, hh, hl, hn⟩, h7⟩ :=
        ih (done ++ [e]) τ (by rw [hsplit]; simp) hgu hcore hrelO hD
      exact ⟨h1, h2, h3, h4, h5, ⟨new2, hh, le_trans hl (Nat.le_succ es.length), hn⟩, h7⟩


/-- At a non-stale pop the popped key equals the node's fscore, pinning its
gscore to the cost of an actual path (via `entries` and `flink`). -/
theorem pop_fresh {K : Type} [LinearOrderedField K] {g : Graph} {h : Nat → K}
    {src : Nat} {σ : AState K} (inv : AInvCore g h src σ) {f : K} {u : Nat}
    {rest : List (K × Nat)} (hpop : popMin σ.heap = some ((f, u), rest))
    (hns : ¬σ.fscore u < ((f : K) : WithTop K)) :
    u < g.size ∧ ∃ c : ℚ, ReachesFrom g src u c ∧
      σ.gscore u = ((c : K) : WithTop K) := by
  have hmem : (f, u) ∈ σ.heap := popMin_mem hpop
  obtain ⟨hu, c, hrc, hf, hgle⟩ := inv.entries (f, u) hmem
  dsimp only at hu hrc hf hgle
  refine ⟨hu, c, hrc, ?_⟩
  have hfb : σ.fscore u ≤ ((f : K) : WithTop K) := inv.fbound (f, u) hmem
  have hfe : σ.fscore u = ((f : K) : WithTop K) := le_antisymm hfb (le_of_not_lt hns)
  have h1 : σ.gscore u + ((h u : K) : WithTop K) =
      ((c : K) : WithTop K) + ((h u : K) : WithTop K) := by
    rw [← inv.flink u, hfe, hf, WithTop.coe_add]
  have htop : ((h u : K) : WithTop K) ≠ ⊤ := WithTop.coe_ne_top
  exact le_antisymm hgle ((WithTop.add_le_add_iff_right htop).1 (le_of_eq h1.symm))

/-- Cover lemma: under the full invariant every source-to-`v` path is either
already matched by `gscore v` or covered by a non-stale heap entry sitting on
the path, splitting its cost. -/
theorem astar_cover {K : Type} [LinearOrderedField K] {g : Graph} {h : Nat → K}
    {src : Nat} {σ : AState K} (inv : AInv g h src σ) {v : Nat} {c : ℚ}
    (hr : ReachesFrom g src v c) :
    σ.gscore v ≤ ((c : K) : WithTop K) ∨
    ∃ p ∈ σ.heap, ∃ c1 c2 : ℚ, ReachesFrom g src p.2 c1 ∧ ReachesFrom g p.2 v c2 ∧
      c = c1 + c2 ∧ σ.gscore p.2 ≤ ((c1 : K) : WithTop K) ∧
      ((p.1 : K) : WithTop K) = σ.fscore p.2 := by
  induction hr with
  | refl =>
    left
    rw [inv.src0]
    simp
  | tail hr' he ih =>
    rename_i w c' e
    rcases ih with hle | ⟨p, hp, c1, c2, h1, h2, h3, h4, h5⟩
    · by_cases hnp : NoPending σ w
      · left
        calc σ.gscore e.tgt ≤ σ.gscore w + ((e.weight : K) : WithTop K) :=
              inv.rel w hnp e he
          _ ≤ ((c' : K) : WithTop K) + ((e.weight : K) : WithTop K) :=
              add_le_add_right hle _
          _ = (((c' + e.weight : ℚ) : K) : WithTop K) := ratCast_add_top c' e.weight
      · right
        unfold NoPending at hnp
        push_neg at hnp
        obtain ⟨p, hp, hpw, hnst⟩ := hnp
        refine ⟨p, hp, c', e.weight, ?_, ?_, rfl, ?_, hnst⟩
        · rw [hpw]; exact hr'
        · rw [hpw]; exact ReachesFrom.single he
        · rw [hpw]; exact hle
    · right
      exact ⟨p, hp, c1, c2 + e.weight, h1, ReachesFrom.tail h2 he,
        by rw [h3]; ring, h4, h5⟩

/-- Minimality of the popped entry: when the heuristic satisfies the triangle
property toward the popped node, that node's gscore matches or beats every
path cost — the popped node is settled (no staleness assumption needed). -/
theorem popped_le {K : Type} [LinearOrderedField K] {g : Graph} {h : Nat → K}
    {src : Nat} {σ : AState K} (inv : AInv g h src σ) {f : K} {u : Nat}
    {rest : List (K × Nat)} (hpop : popMin σ.heap = some ((f, u), rest))
    (htri : ∀ y c2, ReachesFrom g y u c2 → h y ≤ (c2 : K) + h u) :
    ∀ cp : ℚ, ReachesFrom g src u cp → σ.gscore u ≤ ((cp : K) : WithTop K) := by
  intro cp hrp
  rcases astar_cover inv hrp with hle | ⟨p, hp, c1, c2, h1, h2, h3, h4, h5⟩
  · exact hle
  have hfb : σ.fscore u ≤ ((f : K) : WithTop K) := inv.fbound (f, u) (popMin_mem hpop)
  have hp1 : ((p.1 : K) : WithTop K) ≤ (((c1 : K) + h p.2 : K) : WithTop K) := by
    rw [h5, inv.flink p.2, WithTop.coe_add]
    exact add_le_add_right h4 _
  have hp1' : p.1 ≤ (c1 : K) + h p.2 := WithTop.coe_le_coe.1 hp1
  have hfp : f ≤ p.1 := popMin_min σ.heap (f, u) rest hpop p hp
  have hfcp : f ≤ (cp : K) + h u := by
    calc f ≤ (c1 : K) + h p.2 := le_trans hfp hp1'
      _ ≤ (c1 : K) + ((c2 : K) + h u) := add_le_add_left (htri p.2 c2 h2) _
      _ = (cp : K) + h u := by rw [h3]; push_cast; ring
  have hchain : σ.gscore u + ((h u : K) : WithTop K) ≤
      ((cp : K) : WithTop K) + ((h u : K) : WithTop K) := by
    rw [← inv.flink u]
    calc σ.fscore u ≤ ((f : K) : WithTop K) := hfb
      _ ≤ (((cp : K) + h u : K) : WithTop K) := WithTop.coe_le_coe.2 hfcp
      _ = ((cp : K) : WithTop K) + ((h u : K) : WithTop K) := by rw [WithTop.coe_add]
  exact (WithTop.add_le_add_iff_right WithTop.coe_ne_top).1 hchain

/-- With an empty heap every gscore matches or beats every path cost. -/
theorem drained_le {K : Type} [LinearOrderedField K] {g : Graph} {h : Nat → K}
    {src : Nat} {σ : AState K} (inv : AInv g h src σ) (hheap : σ.heap = []) :
    ∀ v c, ReachesFrom g src v c → σ.gscore v ≤ ((c : K) : WithTop K) := by
  intro v c hr
  rcases astar_cover inv hr with hle | ⟨p, hp, _⟩
  · exact hle
  · rw [hheap] at hp
    cases hp

/-- Processing a freshly popped (non-stale) node — removing its entry and
relaxing all its outgoing edges — preserves the full invariant; the node's
gscore is kept, gscores only decrease, and every pushed entry records a
strict improvement of a suboptimal node other than the processed one. -/
theorem astar_process {K : Type} [LinearOrderedField K] {g : Graph} {h : Nat → K}
    {src : Nat} {σ : AState K} (hWF : g.WF) (hNN : g.Nonneg)
    (inv : AInv g h src σ) {f : K} {u : Nat} {rest : List (K × Nat)}
    (hpop : popMin σ.heap = some ((f, u), rest))
    (hns : ¬σ.fscore u < ((f : K) : WithTop K)) :
    AInv g h src (relaxA h u (g.adjOf u) ⟨σ.gscore, σ.fscore, σ.parent, rest⟩) ∧
    (relaxA h u (g.adjOf u) ⟨σ.gscore, σ.fscore, σ.parent, rest⟩).gscore u = σ.gscore u ∧
    (∀ v, (relaxA h u (g.adjOf u)
      ⟨σ.gscore, σ.fscore, σ.parent, rest⟩).gscore v ≤ σ.gscore v) ∧
    (∃ new, (relaxA h u (g.adjOf u) ⟨σ.gscore, σ.fscore, σ.parent, rest⟩).heap =
        rest ++ new ∧ new.length ≤ (g.adjOf u).length ∧
      ∀ p ∈ new, p.2 ≠ u ∧ NotOpt g src σ p.2 ∧
        (relaxA h u (g.adjOf u)
          ⟨σ.gscore, σ.fscore, σ.parent, rest⟩).gscore p.2 < σ.gscore p.2) ∧
    (∀ v, (relaxA h u (g.adjOf u) ⟨σ.gscore, σ.fscore, σ.parent, rest⟩).gscore v ≠
        σ.gscore v → NotOpt g src σ v) := by
  obtain ⟨hu, c, hrc, hgc⟩ := pop_fresh inv.toAInvCore hpop hns
  have hc0 : 0 ≤ c := hrc.cost_nonneg hNN
  have hcoreτ : AInvCore g h src ⟨σ.gscore, σ.fscore, σ.parent, rest⟩ :=
    inv.toAInvCore.pop hpop
  have hrelO : ∀ w, w ≠ u →
      NoPending (⟨σ.gscore, σ.fscore, σ.parent, rest⟩ : AState K) w →
      ∀ e ∈ g.adjOf w, σ.gscore e.tgt ≤ σ.gscore w + ((e.weight : K) : WithTop K) := by
    intro w hw hnp e he
    have hnpσ : NoPending σ w := by
      intro q hq hq2 hnst
      rcases popMin_mem_cases hpop hq with rfl | hqr
      · exact hw hq2.symm
      · exact hnp q hqr hq2 hnst
    exact inv.rel w hnpσ e he
  obtain ⟨hcoreF, hguF, hrelOF, hrelUF, hmonoF, hnewF, hupdF⟩ :=
    relaxA_master g h src hWF hNN u hu c hc0 hrc (g.adjOf u) []
      ⟨σ.gscore, σ.fscore, σ.parent, rest⟩ (by simp) hgc hcoreτ hrelO (by simp)
  refine ⟨⟨hcoreF, ?_⟩, by rw [hguF, hgc], hmonoF, hnewF, hupdF⟩
  intro w hnp e he
  by_cases hw : w = u
  · subst hw
    rw [hguF]
    exact hrelUF e he
  · exact hrelOF w hw hnp e he

/-- Stored edge weights are non-negative under `Graph.Nonneg`. -/
theorem weightFinset_nonneg {g : Graph} (hNN : g.Nonneg) :
    ∀ x : ℚ, x ∈ (weightFinset g : Set ℚ) → 0 ≤ x := by
  intro x hx
  simp only [weightFinset, Finset.coe_sort_coe, List.coe_toFinset, List.mem_map,
    List.mem_flatten, Set.mem_setOf_eq] at hx
  obtain ⟨e, ⟨l, hl, hel⟩, rfl⟩ := hx
  exact hNN l hl e hel

/-- With non-negative weights the set of path costs to a reachable node has a
least element (it sits inside the well-founded additive closure of the finite
weight set). -/
theorem exists_least_cost {g : Graph} (hNN : g.Nonneg) {src dst : Nat}
    (hre : ∃ c, ReachesFrom g src dst c) :
    ∃ copt, IsLeast {c : ℚ | ReachesFrom g src dst c} copt := by
  have hpwo : Set.IsPWO (↑(weightFinset g) : Set ℚ) :=
    (weightFinset g).finite_toSet.isPWO
  have hcl : Set.IsPWO (AddSubmonoid.closure (↑(weightFinset g) : Set ℚ) : Set ℚ) :=
    hpwo.addSubmonoid_closure (weightFinset_nonneg hNN)
  have hS : Set.IsWF {c : ℚ | ReachesFrom g src dst c} :=
    hcl.isWF.mono (fun c hc => ReachesFrom.mem_closure hc)
  exact ⟨hS.min hre, hS.min_mem hre, fun b hb => hS.min_le hre hb⟩

/-- Every exit of the A* loop preserves the core invariant and only lowers
gscores; when the heuristic satisfies the triangle property toward `dst`, the
reported gscore at `dst` is the least source-to-`dst` path cost. -/
theorem astarLoop_exit {K : Type} [LinearOrderedField K] {g : Graph} {h : Nat → K}
    {src dst : Nat} (hWF : g.WF) (hNN : g.Nonneg) :
    ∀ n (σ : AState K), AInv g h src σ → (astarLoop g h dst n σ).2 = true →
      AInvCore g h src (astarLoop g h dst n σ).1 ∧
      (∀ v, (astarLoop g h dst n σ).1.gscore v ≤ σ.gscore v) ∧
      ((∀ y c2, ReachesFrom g y dst c2 → h y ≤ (c2 : K) + h dst) →
        ∀ copt, IsLeast {c : ℚ | ReachesFrom g src dst c} copt →
          (astarLoop g h dst n σ).1.gscore dst = ((copt : K) : WithTop K)) := by
  intro n
  induction n with
  | zero =>
    intro σ inv hex
    simp [astarLoop] at hex
  | succ n ih =>
    intro σ inv hex
    rcases hpop : popMin σ.heap with _ | ⟨⟨f, u⟩, rest⟩
    · have hheap : σ.heap = [] := (popMin_ne_none σ.heap).1 hpop
      have hrun : astarLoop g h dst (n + 1) σ = (σ, true) := by
        simp only [astarLoop, hpop]
      rw [hrun]
      refine ⟨inv.toAInvCore, fun v => le_refl _, ?_⟩
      intro htri copt hopt
      have hle : σ.gscore dst ≤ ((copt : K) : WithTop K) :=
        drained_le inv hheap dst copt hopt.1
      rcases inv.gval dst with htop | ⟨c2, hg2, hr2⟩
      · rw [htop] at hle
        exact absurd hle (by simp)
      · rw [hg2]
        have h1 : copt ≤ c2 := hopt.2 hr2
        have h2 : c2 ≤ copt := by
          rw [hg2] at hle
          exact_mod_cast hle
        rw [le_antisymm h2 h1]
    · by_cases hdst : u = dst
      · have hrun : astarLoop g h dst (n + 1) σ =
            (⟨σ.gscore, σ.fscore, σ.parent, rest⟩, true) := by
          simp only [astarLoop, hpop]
          rw [if_pos hdst]
        rw [hrun]
        refine ⟨inv.toAInvCore.pop hpop, fun v => le_refl _, ?_⟩
        intro htri copt hopt
        rw [← hdst] at htri hopt ⊢
        have hle : σ.gscore u ≤ ((copt : K) : WithTop K) :=
          popped_le inv hpop htri copt hopt.1
        rcases inv.gval u with htop | ⟨c2, hg2, hr2⟩
        · rw [htop] at hle
          exact absurd hle (by simp)
        · show σ.gscore u = _
          rw [hg2]
          have h1 : copt ≤ c2 := hopt.2 hr2
          have h2 : c2 ≤ copt := by
            rw [hg2] at hle
            exact_mod_cast hle
          rw [le_antisymm h2 h1]
      · by_cases hstale : σ.fscore u < ((f : K) : WithTop K)
        · have hrun : astarLoop g h dst (n + 1) σ =
              astarLoop g h dst n ⟨σ.gscore, σ.fscore, σ.parent, rest⟩ := by
            simp only [astarLoop, hpop]
            rw [if_neg hdst, if_pos hstale]
          rw [hrun] at hex ⊢
          have hstale' : ¬NonStale σ (f, u) := fun hq =>
            absurd hq.symm (ne_of_lt hstale)
          exact ih _ (inv.pop_stale hpop hstale') hex
        · have hrun : astarLoop g h dst (n + 1) σ =
              astarLoop g h dst n
                (relaxA h u (g.adjOf u) ⟨σ.gscore, σ.fscore, σ.parent, rest⟩) := by
            simp only [astarLoop, hpop]
            rw [if_neg hdst, if_neg hstale]
          rw [hrun] at hex ⊢
          obtain ⟨hinv1, hgu1, hmono1, _, _⟩ := astar_process hWF hNN inv hpop hstale
          obtain ⟨ha, hb, hc⟩ := ih _ hinv1 hex
          exact ⟨ha, fun v => le_trans (hb v) (hmono1 v), hc⟩

/-- When the destination id is out of range the loop can only exit by
draining its heap, and the final state satisfies the full invariant. -/
theorem astarLoop_drain {K : Type} [LinearOrderedField K] {g : Graph} {h : Nat → K}
    {src dst : Nat} (hWF : g.WF) (hNN : g.Nonneg) (hdst : g.size ≤ dst) :
    ∀ n (σ : AState K), AInv g h src σ → (astarLoop g h dst n σ).2 = true →
      AInv g h src (astarLoop g h dst n σ).1 ∧
      (astarLoop g h dst n σ).1.heap = [] ∧
      (∀ v, (astarLoop g h dst n σ).1.gscore v ≤ σ.gscore v) := by
  intro n
  induction n with
  | zero =>
    intro σ inv hex
    simp [astarLoop] at hex
  | succ n ih =>
    intro σ inv hex
    rcases hpop : popMin σ.heap with _ | ⟨⟨f, u⟩, rest⟩
    · have hheap : σ.heap = [] := (popMin_ne_none σ.heap).1 hpop
      have hrun : astarLoop g h dst (n + 1) σ = (σ, true) := by
        simp only [astarLoop, hpop]
      rw [hrun]
      exact ⟨inv, hheap, fun v => le_refl _⟩
    · have hu : u < g.size := (inv.entries (f, u) (popMin_mem hpop)).1
      have hdst' : u ≠ dst := by omega
      by_cases hstale : σ.fscore u < ((f : K) : WithTop K)
      · have hrun : astarLoop g h dst (n + 1) σ =
            astarLoop g h dst n ⟨σ.gscore, σ.fscore, σ.parent, rest⟩ := by
          simp only [astarLoop, hpop]
          rw [if_neg hdst', if_pos hstale]
        rw [hrun] at hex ⊢
        have hstale' : ¬NonStale σ (f, u) := fun hq =>
          absurd hq.symm (ne_of_lt hstale)
        exact ih _ (inv.pop_stale hpop hstale') hex
      · have hrun : astarLoop g h dst (n + 1) σ =
            astarLoop g h dst n
              (relaxA h u (g.adjOf u) ⟨σ.gscore, σ.fscore, σ.parent, rest⟩) := by
          simp only [astarLoop, hpop]
          rw [if_neg hdst', if_neg hstale]
        rw [hrun] at hex ⊢
        obtain ⟨hinv1, hgu1, hmono1, _, _⟩ := astar_process hWF hNN inv hpop hstale
        obtain ⟨ha, hb, hc⟩ := ih _ hinv1 hex
        exact ⟨ha, hb, fun v => le_trans (hc v) (hmono1 v)⟩

/-! ## Dijkstra as A* with the zero heuristic -/

/-- Correspondence between a Dijkstra state and an A* state over ℚ with the
zero heuristic: identical distance, parent and heap data, and `fscore`
coinciding with `gscore`. -/
def Matches (δ : DState) (σ : AState ℚ) : Prop :=
  δ.dist = σ.gscore ∧ δ.parent = σ.parent ∧ δ.heap = σ.heap ∧ σ.fscore = σ.gscore

/-- The initial states of the two searches correspond. -/
theorem matches_init (src : Nat) :
    Matches (dijkstraInit src) (astarInit (fun _ => (0 : ℚ)) src) :=
  ⟨rfl, rfl, rfl, rfl⟩

/-- The relaxation bodies of `dijkstra` and `astar` (zero heuristic) act
identically on corresponding states when the processed node's gscore equals
the popped key and the edge weights are non-negative. -/
theorem relaxD_matches (u : Nat) (d : ℚ) :
    ∀ (es : List Edge) (δ : DState) (σ : AState ℚ),
      Matches δ σ → σ.gscore u = ((d : ℚ) : WithTop ℚ) →
      (∀ e ∈ es, 0 ≤ e.weight) →
      Matches (relaxD d u es δ) (relaxA (fun _ => (0 : ℚ)) u es σ) ∧
        (relaxA (fun _ => (0 : ℚ)) u es σ).gscore u = ((d : ℚ) : WithTop ℚ) := by
  intro es
  induction es with
  | nil =>
    intro δ σ hm hgu hw
    exact ⟨hm, hgu⟩
  | cons e es ih =>
    intro δ σ hm hgu hw
    obtain ⟨h1, h2, h3, h4⟩ := hm
    have hw0 : 0 ≤ e.weight := hw e (List.mem_cons_self e es)
    have hval : σ.gscore u + ((e.weight : ℚ) : WithTop ℚ) =
        (((d + e.weight : ℚ)) : WithTop ℚ) := by
      rw [hgu, ← WithTop.coe_add]
    have hcond : (((d + e.weight : ℚ) : WithTop ℚ) < δ.dist e.tgt) ↔
        (σ.gscore u + ((e.weight : ℚ) : WithTop ℚ) < σ.gscore e.tgt) := by
      rw [h1, hval]
    rw [relaxD, relaxA]
    simp only [Rat.cast_id]
    by_cases hlt : σ.gscore u + ((e.weight : ℚ) : WithTop ℚ) < σ.gscore e.tgt
    · rw [if_pos (hcond.2 hlt), if_pos hlt]
      have htu : e.tgt ≠ u := by
        intro hq
        rw [hq, hgu] at hlt
        have : d + e.weight < d := by exact_mod_cast hlt
        linarith
      apply ih
      · refine ⟨?_, ?_, ?_, ?_⟩ <;> dsimp only
        · rw [h1, hval]
        · rw [h2]
        · rw [h3, hval]
          simp only [WithTop.untop'_coe, add_zero]
        · rw [h4]
          funext v
          by_cases hv : v = e.tgt
          · subst hv
            rw [Function.update_same, Function.update_same]
            simp only [WithTop.coe_zero, add_zero]
          · rw [Function.update_noteq hv, Function.update_noteq hv]
      · dsimp only
        rw [Function.update_noteq (Ne.symm htu)]
        exact hgu
      · intro e' he'
        exact hw e' (List.mem_cons_of_mem _ he')
    · rw [if_neg (fun hq => hlt (hcond.1 hq)), if_neg hlt]
      exact ih δ σ ⟨h1, h2, h3, h4⟩ hgu (fun e' he' => hw e' (List.mem_cons_of_mem _ he'))

/-- The `dijkstra` loop and the zero-heuristic `astar` loop with an
out-of-range destination run in lockstep on corresponding states. -/
theorem dijkstraLoop_matches {g : Graph} {src : Nat} (hWF : g.WF) (hNN : g.Nonneg) :
    ∀ (n : Nat) (δ : DState) (σ : AState ℚ), Matches δ σ →
      AInv g (fun _ => (0 : ℚ)) src σ →
      Matches (dijkstraLoop g n δ) (astarLoop g (fun _ => (0 : ℚ)) g.size n σ).1 := by
  intro n
  induction n with
  | zero =>
    intro δ σ hm _
    simp only [dijkstraLoop, astarLoop]
    exact hm
  | succ n ih =>
    intro δ σ hm inv
    obtain ⟨h1, h2, h3, h4⟩ := hm
    rcases hpop : popMin σ.heap with _ | ⟨⟨f, u⟩, rest⟩
    · have hpd : popMin δ.heap = none := by rw [h3, hpop]
      have hrunD : dijkstraLoop g (n + 1) δ = δ := by
        simp only [dijkstraLoop, hpd]
      have hrunA : astarLoop g (fun _ => (0 : ℚ)) g.size (n + 1) σ = (σ, true) := by
        simp only [astarLoop, hpop]
      rw [hrunD, hrunA]
      exact ⟨h1, h2, h3, h4⟩
    · have hpd : popMin δ.heap = some ((f, u), rest) := by rw [h3, hpop]
      have hu : u < g.size := (inv.entries (f, u) (popMin_mem hpop)).1
      have hne : u ≠ g.size := by omega
      by_cases hstale : σ.fscore u < ((f : ℚ) : WithTop ℚ)
      · have hsD : δ.dist u < ((f : ℚ) : WithTop ℚ) := by
          rw [h1, ← h4]
          exact hstale
        have hrunD : dijkstraLoop g (n + 1) δ =
            dijkstraLoop g n ⟨δ.dist, δ.parent, rest⟩ := by
          simp only [dijkstraLoop, hpd]
          rw [if_pos hsD]
        have hrunA : astarLoop g (fun _ => (0 : ℚ)) g.size (n + 1) σ =
            astarLoop g (fun _ => (0 : ℚ)) g.size n
              ⟨σ.gscore, σ.fscore, σ.parent, rest⟩ := by
          simp only [astarLoop, hpop]
          rw [if_neg hne, if_pos hstale]
        rw [hrunD, hrunA]
        have hstale' : ¬NonStale σ (f, u) := fun hq =>
          absurd hq.symm (ne_of_lt hstale)
        exact ih ⟨δ.dist, δ.parent, rest⟩ _ ⟨h1, h2, rfl, h4⟩
          (inv.pop_stale hpop hstale')
      · have hsD : ¬(δ.dist u < ((f : ℚ) : WithTop ℚ)) := by
          rw [h1, ← h4]
          exact hstale
        have hrunD : dijkstraLoop g (n + 1) δ =
            dijkstraLoop g n (relaxD f u (g.adjOf u) ⟨δ.dist, δ.parent, rest⟩) := by
          simp only [dijkstraLoop, hpd]
          rw [if_neg hsD]
        have hrunA : astarLoop g (fun _ => (0 : ℚ)) g.size (n + 1) σ =
            astarLoop g (fun _ => (0 : ℚ)) g.size n
              (relaxA (fun _ => (0 : ℚ)) u (g.adjOf u)
                ⟨σ.gscore, σ.fscore, σ.parent, rest⟩) := by
          simp only [astarLoop, hpop]
          rw [if_neg hne, if_neg hstale]
        rw [hrunD, hrunA]
        have hfb : σ.fscore u ≤ ((f : ℚ) : WithTop ℚ) :=
          inv.fbound (f, u) (popMin_mem hpop)
        have hgf : σ.gscore u = ((f : ℚ) : WithTop ℚ) := by
          rw [← h4]
          exact le_antisymm hfb (le_of_not_lt hstale)
        obtain ⟨hm2, hgu2⟩ := relaxD_matches u f (g.adjOf u)
          ⟨δ.dist, δ.parent, rest⟩ ⟨σ.gscore, σ.fscore, σ.parent, rest⟩
          ⟨h1, h2, rfl, h4⟩ hgf (fun e he => weight_nonneg hNN he)
        obtain ⟨hinv1, _, _, _, _⟩ := astar_process hWF hNN inv hpop hstale
        exact ih _ _ hm2 hinv1

/-- Distinctness transfer: any remaining entry for the popped node carries a
different key. -/
theorem rest_key_ne {K : Type} [LinearOrder K] {l : List (K × Nat)} {m : K × Nat}
    {r : List (K × Nat)} (hpop : popMin l = some (m, r))
    (hdis : l.Pairwise (fun a b => a.2 = b.2 → a.1 ≠ b.1)) :
    ∀ q ∈ r, q.2 = m.2 → q.1 ≠ m.1 := by
  obtain ⟨l1, l2, hl, hr⟩ := popMin_split l m r hpop
  subst hl hr
  intro q hq hq2
  rcases List.mem_append.1 hq with h1 | h1
  · exact (List.pairwise_append.1 hdis).2.2 q h1 m (by simp) hq2
  · have hml2 := (List.pairwise_cons.1 (List.pairwise_append.1 hdis).2.1).1 q h1
    intro hq1
    exact hml2 hq2.symm hq1.symm

/-- A settled node: optimal gscore and no pending heap work (used for the
fuel bound of the zero-heuristic search). -/
def DoneAt (g : Graph) (src : Nat) (σ : AState ℚ) (u : Nat) : Prop :=
  NoPending σ u ∧ ∀ c : ℚ, ReachesFrom g src u c → σ.gscore u ≤ ((c : ℚ) : WithTop ℚ)

/-- The unsettled nodes of a state. -/
noncomputable def unsettled (g : Graph) (src : Nat) (σ : AState ℚ) : Finset Nat :=
  @Finset.filter _ (fun u => ¬DoneAt g src σ u) (Classical.decPred _) (Finset.range g.size)

theorem mem_unsettled {g : Graph} {src : Nat} {σ : AState ℚ} {v : Nat} :
    v ∈ unsettled g src σ ↔ v < g.size ∧ ¬DoneAt g src σ v := by
  unfold unsettled
  rw [@Finset.mem_filter ℕ (fun u => ¬DoneAt g src σ u) (Classical.decPred _)
    (Finset.range g.size) v, Finset.mem_range]

/-- Loop potential: heap size plus the out-degrees of unsettled nodes. -/
noncomputable def phi (g : Graph) (src : Nat) (σ : AState ℚ) : Nat :=
  σ.heap.length + (unsettled g src σ).sum (fun u => (g.adjOf u).length)

/-- Settledness is preserved by removing a heap entry. -/
theorem doneAt_pop {g : Graph} {src : Nat} {σ : AState ℚ} {p : ℚ × Nat}
    {rest : List (ℚ × Nat)} (hpop : popMin σ.heap = some (p, rest)) {u : Nat}
    (hd : DoneAt g src σ u) :
    DoneAt g src ⟨σ.gscore, σ.fscore, σ.parent, rest⟩ u := by
  refine ⟨?_, hd.2⟩
  intro q hq hq2 hns
  exact hd.1 q (popMin_rest_mem hpop hq) hq2 hns

/-- Settledness is preserved by processing a non-stale popped node. -/
theorem doneAt_process {g : Graph} {src : Nat} {σ : AState ℚ} (hWF : g.WF)
    (hNN : g.Nonneg) (inv : AInv g (fun _ => (0 : ℚ)) src σ) {f : ℚ} {u : Nat}
    {rest : List (ℚ × Nat)} (hpop : popMin σ.heap = some ((f, u), rest))
    (hns : ¬σ.fscore u < ((f : ℚ) : WithTop ℚ)) {w : Nat} (hd : DoneAt g src σ w) :
    DoneAt g src (relaxA (fun _ => (0 : ℚ)) u (g.adjOf u)
      ⟨σ.gscore, σ.fscore, σ.parent, rest⟩) w := by
  obtain ⟨hinv1, hgu1, hmono1, ⟨new, hheap1, hlen1, hnew1⟩, hupd1⟩ :=
    astar_process hWF hNN inv hpop hns
  have hgw : (relaxA (fun _ => (0 : ℚ)) u (g.adjOf u)
      ⟨σ.gscore, σ.fscore, σ.parent, rest⟩).gscore w = σ.gscore w := by
    by_contra hne
    obtain ⟨cq, hcq, hncq⟩ := hupd1 w hne
    exact hncq (by simp only [Rat.cast_id]; exact hd.2 cq hcq)
  refine ⟨?_, ?_⟩
  · intro q hq hq2 hnsq
    rw [hheap1] at hq
    rcases List.mem_append.1 hq with hq' | hq'
    · have hfs : (relaxA (fun _ => (0 : ℚ)) u (g.adjOf u)
          ⟨σ.gscore, σ.fscore, σ.parent, rest⟩).fscore w = σ.fscore w := by
        rw [hinv1.flink w, inv.flink w, hgw]
      apply hd.1 q (popMin_rest_mem hpop hq') hq2
      unfold NonStale at hnsq ⊢
      rw [hq2] at hnsq ⊢
      rw [hfs] at hnsq
      exact hnsq
    · obtain ⟨hqu, ⟨cq, hcq, hncq⟩, _⟩ := hnew1 q hq'
      rw [hq2] at hncq hcq
      exact absurd (by simp only [Rat.cast_id]; exact hd.2 cq hcq) hncq
  · intro c hc
    rw [hgw]
    exact hd.2 c hc

/-- After being processed, the popped node is settled (zero heuristic). -/
theorem doneAt_after {g : Graph} {src : Nat} {σ : AState ℚ} (hWF : g.WF)
    (hNN : g.Nonneg) (inv : AInv g (fun _ => (0 : ℚ)) src σ) {f : ℚ} {u : Nat}
    {rest : List (ℚ × Nat)} (hpop : popMin σ.heap = some ((f, u), rest))
    (hns : ¬σ.fscore u < ((f : ℚ) : WithTop ℚ)) :
    DoneAt g src (relaxA (fun _ => (0 : ℚ)) u (g.adjOf u)
      ⟨σ.gscore, σ.fscore, σ.parent, rest⟩) u := by
  obtain ⟨hinv1, hgu1, hmono1, ⟨new, hheap1, hlen1, hnew1⟩, hupd1⟩ :=
    astar_process hWF hNN inv hpop hns
  have hopt := popped_le inv hpop (by
    intro y c2 h2
    have := h2.cost_nonneg hNN
    simp only [Rat.cast_id]
    linarith)
  have hfe : σ.fscore u = ((f : ℚ) : WithTop ℚ) :=
    le_antisymm (inv.fbound (f, u) (popMin_mem hpop)) (le_of_not_lt hns)
  refine ⟨?_, ?_⟩
  · intro q hq hq2 hnsq
    rw [hheap1] at hq
    rcases List.mem_append.1 hq with hq' | hq'
    · have hkne : q.1 ≠ f := rest_key_ne hpop inv.distinct q hq' hq2
      have hfs1 : (relaxA (fun _ => (0 : ℚ)) u (g.adjOf u)
          ⟨σ.gscore, σ.fscore, σ.parent, rest⟩).fscore u = ((f : ℚ) : WithTop ℚ) := by
        rw [hinv1.flink u, hgu1, ← inv.flink u, hfe]
      unfold NonStale at hnsq
      rw [hq2, hfs1] at hnsq
      exact hkne (by exact_mod_cast hnsq)
    · exact (hnew1 q hq').1 hq2
  · intro c hc
    rw [hgu1]
    exact (by simpa only [Rat.cast_id] using hopt c hc)

/-- The potential strictly decreases when a stale entry is dropped. -/
theorem phi_pop_stale {g : Graph} {src : Nat} {σ : AState ℚ} {p : ℚ × Nat}
    {rest : List (ℚ × Nat)} (hpop : popMin σ.heap = some (p, rest)) :
    phi g src ⟨σ.gscore, σ.fscore, σ.parent, rest⟩ < phi g src σ := by
  have hlen := popMin_length hpop
  have hsub : unsettled g src ⟨σ.gscore, σ.fscore, σ.parent, rest⟩ ⊆
      unsettled g src σ := by
    intro v hv
    obtain ⟨hv1, hv2⟩ := mem_unsettled.1 hv
    exact mem_unsettled.2 ⟨hv1, fun hd => hv2 (doneAt_pop hpop hd)⟩
  have hsum : (unsettled g src ⟨σ.gscore, σ.fscore, σ.parent, rest⟩).sum
      (fun u => (g.adjOf u).length) ≤
      (unsettled g src σ).sum (fun u => (g.adjOf u).length) :=
    Finset.sum_le_sum_of_subset hsub
  unfold phi
  dsimp only
  omega

/-- The potential strictly decreases when a non-stale node is processed. -/
theorem phi_process {g : Graph} {src : Nat} {σ : AState ℚ} (hWF : g.WF)
    (hNN : g.Nonneg) (inv : AInv g (fun _ => (0 : ℚ)) src σ) {f : ℚ} {u : Nat}
    {rest : List (ℚ × Nat)} (hpop : popMin σ.heap = some ((f, u), rest))
    (hns : ¬σ.fscore u < ((f : ℚ) : WithTop ℚ)) :
    phi g src (relaxA (fun _ => (0 : ℚ)) u (g.adjOf u)
      ⟨σ.gscore, σ.fscore, σ.parent, rest⟩) < phi g src σ := by
  obtain ⟨hinv1, hgu1, hmono1, ⟨new, hheap1, hlen1, hnew1⟩, hupd1⟩ :=
    astar_process hWF hNN inv hpop hns
  have hu : u < g.size := (inv.entries (f, u) (popMin_mem hpop)).1
  have hlen := popMin_length hpop
  have hdoneu := doneAt_after hWF hNN inv hpop hns
  have hfe : σ.fscore u = ((f : ℚ) : WithTop ℚ) :=
    le_antisymm (inv.fbound (f, u) (popMin_mem hpop)) (le_of_not_lt hns)
  have hnotdone : ¬DoneAt g src σ u := fun hd =>
    hd.1 (f, u) (popMin_mem hpop) rfl hfe.symm
  have humem : u ∈ unsettled g src σ := mem_unsettled.2 ⟨hu, hnotdone⟩
  have hsub : unsettled g src (relaxA (fun _ => (0 : ℚ)) u (g.adjOf u)
      ⟨σ.gscore, σ.fscore, σ.parent, rest⟩) ⊆ (unsettled g src σ).erase u := by
    intro v hv
    obtain ⟨hv1, hv2⟩ := mem_unsettled.1 hv
    refine Finset.mem_erase.2 ⟨?_, mem_unsettled.2
      ⟨hv1, fun hd => hv2 (doneAt_process hWF hNN inv hpop hns hd)⟩⟩
    intro hveq
    subst hveq
    exact hv2 hdoneu
  have hsum : (unsettled g src (relaxA (fun _ => (0 : ℚ)) u (g.adjOf u)
      ⟨σ.gscore, σ.fscore, σ.parent, rest⟩)).sum (fun w => (g.adjOf w).length) ≤
      ((unsettled g src σ).erase u).sum (fun w => (g.adjOf w).length) :=
    Finset.sum_le_sum_of_subset hsub
  have herase : (g.adjOf u).length +
      ((unsettled g src σ).erase u).sum (fun w => (g.adjOf w).length) =
      (unsettled g src σ).sum (fun w => (g.adjOf w).length) :=
    Finset.add_sum_erase _ (fun w => (g.adjOf w).length) humem
  have hheapb : (relaxA (fun _ => (0 : ℚ)) u (g.adjOf u)
      ⟨σ.gscore, σ.fscore, σ.parent, rest⟩).heap.length =
      rest.length + new.length := by
    rw [hheap1]
    simp
  unfold phi
  omega

/-- Within fuel exceeding the potential, the zero-heuristic loop (with an
out-of-range destination) reaches its exit. -/
theorem astarLoop_fuel {g : Graph} {src : Nat} (hWF : g.WF) (hNN : g.Nonneg) :
    ∀ n (σ : AState ℚ), AInv g (fun _ => (0 : ℚ)) src σ → phi g src σ < n →
      (astarLoop g (fun _ => (0 : ℚ)) g.size n σ).2 = true := by
  intro n
  induction n with
  | zero =>
    intro σ inv hφ
    exact absurd hφ (Nat.not_lt_zero _)
  | succ n ih =>
    intro σ inv hφ
    rcases hpop : popMin σ.heap with _ | ⟨⟨f, u⟩, rest⟩
    · simp [astarLoop, hpop]
    · have hu : u < g.size := (inv.entries (f, u) (popMin_mem hpop)).1
      have hne : u ≠ g.size := by omega
      by_cases hstale : σ.fscore u < ((f : ℚ) : WithTop ℚ)
      · have hrun : astarLoop g (fun _ => (0 : ℚ)) g.size (n + 1) σ =
            astarLoop g (fun _ => (0 : ℚ)) g.size n
              ⟨σ.gscore, σ.fscore, σ.parent, rest⟩ := by
          simp only [astarLoop, hpop]
          rw [if_neg hne, if_pos hstale]
        rw [hrun]
        have hstale' : ¬NonStale σ (f, u) := fun hq =>
          absurd hq.symm (ne_of_lt hstale)
        have hφ1 := @phi_pop_stale g src σ (f, u) rest hpop
        exact ih _ (inv.pop_stale hpop hstale') (by omega)
      · have hrun : astarLoop g (fun _ => (0 : ℚ)) g.size (n + 1) σ =
            astarLoop g (fun _ => (0 : ℚ)) g.size n
              (relaxA (fun _ => (0 : ℚ)) u (g.adjOf u)
                ⟨σ.gscore, σ.fscore, σ.parent, rest⟩) := by
          simp only [astarLoop, hpop]
          rw [if_neg hne, if_neg hstale]
        rw [hrun]
        obtain ⟨hinv1, _, _, _, _⟩ := astar_process hWF hNN inv hpop hstale
        have hφ1 := phi_process hWF hNN inv hpop hstale
        exact ih _ hinv1 (by omega)

/-- Summing stored list lengths over the index range gives the total. -/
theorem sum_getD_length : ∀ (l : List (List Edge)),
    ((Finset.range l.length).sum fun u => (l.getD u []).length) =
      (l.map List.length).sum := by
  intro l
  induction l with
  | nil => simp
  | cons a l ih =>
    rw [List.length_cons, Finset.sum_range_succ']
    simp only [List.getD_cons_succ, List.getD_cons_zero, List.map_cons, List.sum_cons]
    rw [ih]
    omega

/-- The out-degrees over all node ids sum to the edge count. -/
theorem sum_adjOf {g : Graph} (hWF : g.WF) :
    ((Finset.range g.size).sum fun u => (g.adjOf u).length) = g.edgeCount := by
  have hlen : g.size = g.adj.length := by
    have h1 := hWF.1
    unfold Graph.size
    omega
  unfold Graph.adjOf Graph.edgeCount
  rw [hlen]
  exact sum_getD_length g.adj

/-- The fixed fuel of `dijkstra` exceeds the initial potential. -/
theorem phi_init_lt {g : Graph} (hWF : g.WF) (src : Nat) :
    phi g src (astarInit (fun _ => (0 : ℚ)) src) < searchFuel g := by
  have hsub : unsettled g src (astarInit (fun _ => (0 : ℚ)) src) ⊆
      Finset.range g.size := by
    intro v hv
    exact Finset.mem_range.2 (mem_unsettled.1 hv).1
  have hsum : (unsettled g src (astarInit (fun _ => (0 : ℚ)) src)).sum
      (fun u => (g.adjOf u).length) ≤
      (Finset.range g.size).sum (fun u => (g.adjOf u).length) :=
    Finset.sum_le_sum_of_subset hsub
  rw [sum_adjOf hWF] at hsum
  have hheap : (astarInit (fun _ => (0 : ℚ)) src : AState ℚ).heap.length = 1 := by
    simp [astarInit]
  unfold phi searchFuel
  omega

/-- Projection of a range-map list. -/
theorem getD_map_range {α : Type} (f : Nat → α) (d : α) {n v : Nat} (hv : v < n) :
    (((List.range n).map f).getD v d) = f v := by
  rw [List.getD_eq_getElem?_getD, List.getElem?_map, List.getElem?_range hv]
  rfl

/-- The final state of `dijkstra`'s loop matches a drained A* state that
satisfies the full invariant. -/
theorem dijkstra_final {g : Graph} {src : Nat} (hWF : g.WF) (hNN : g.Nonneg)
    (hsrc : src < g.size) :
    ∃ σ : AState ℚ,
      Matches (dijkstraLoop g (searchFuel g) (dijkstraInit src)) σ ∧
      AInv g (fun _ => (0 : ℚ)) src σ ∧ σ.heap = [] ∧
      (∀ v c, ReachesFrom g src v c → σ.gscore v ≤ ((c : ℚ) : WithTop ℚ)) := by
  have hinv0 := astarInit_inv g (fun _ => (0 : ℚ)) src hsrc
  have hex := astarLoop_fuel hWF hNN (searchFuel g) _ hinv0 (phi_init_lt hWF src)
  obtain ⟨hinvF, hheapF, hmonoF⟩ :=
    astarLoop_drain hWF hNN (le_refl g.size) (searchFuel g) _ hinv0 hex
  refine ⟨_, dijkstraLoop_matches hWF hNN (searchFuel g) _ _ (matches_init src) hinv0,
    hinvF, hheapF, ?_⟩
  intro v c hc
  have := drained_le hinvF hheapF v c hc
  simpa only [Rat.cast_id] using this

/-- C1: for every well-formed graph with non-negative edge weights and every
valid source id, `dijkstra` returns a distance array of one entry per node
with `dist[source] = 0`, `dist[n]` the true minimum path cost for every
reachable `n`, `dist[n] = ∞` for every unreachable `n`, and `dist[n] ≥ 0`
throughout. -/
theorem dijkstra_correct (g : Graph) (src : Nat) (hWF : g.WF) (hNN : g.Nonneg)
    (hsrc : src < g.size) :
    (dijkstra g src).1.length = g.size ∧
    (dijkstra g src).1.getD src ⊤ = ((0 : ℚ) : WithTop ℚ) ∧
    (∀ v, v < g.size →
      ((∃ c, ReachesFrom g src v c) →
        ∃ copt : ℚ, IsLeast {c : ℚ | ReachesFrom g src v c} copt ∧
          (dijkstra g src).1.getD v ⊤ = ((copt : ℚ) : WithTop ℚ)) ∧
      ((¬∃ c, ReachesFrom g src v c) → (dijkstra g src).1.getD v ⊤ = ⊤) ∧
      (0 : WithTop ℚ) ≤ (dijkstra g src).1.getD v ⊤) := by
  obtain ⟨σF, ⟨h1, h2, h3, h4⟩, hinv, hheap, hopt⟩ := dijkstra_final hWF hNN hsrc
  have hproj : ∀ v, v < g.size → (dijkstra g src).1.getD v ⊤ =
      (dijkstraLoop g (searchFuel g) (dijkstraInit src)).dist v := by
    intro v hv
    unfold dijkstra
    exact getD_map_range _ _ hv
  refine ⟨by simp [dijkstra], ?_, ?_⟩
  · rw [hproj src hsrc, h1]
    exact hinv.src0
  · intro v hv
    refine ⟨?_, ?_, ?_⟩
    · intro hre
      obtain ⟨copt, hco⟩ := exists_least_cost hNN hre
      refine ⟨copt, hco, ?_⟩
      rw [hproj v hv, h1]
      have hle := hopt v copt hco.1
      rcases hinv.gval v with htop | ⟨c2, hg2, hr2⟩
      · rw [htop] at hle
        exact absurd hle (by simp)
      · simp only [Rat.cast_id] at hg2
        rw [hg2] at hle ⊢
        have ha : c2 ≤ copt := by exact_mod_cast hle
        have hb : copt ≤ c2 := hco.2 hr2
        rw [le_antisymm ha hb]
    · intro hnre
      rw [hproj v hv, h1]
      rcases hinv.gval v with htop | ⟨c2, hg2, hr2⟩
      · exact htop
      · exact absurd ⟨c2, hr2⟩ hnre
    · rw [hproj v hv, h1]
      rcases hinv.gval v with htop | ⟨c2, hg2, hr2⟩
      · rw [htop]
        exact le_top
      · simp only [Rat.cast_id] at hg2
        rw [hg2]
        have hc2 := hr2.cost_nonneg hNN
        exact_mod_cast hc2

/-! ## Termination of the A* loop for an arbitrary heuristic -/

/-- The `K`-valued additive monoid generated by the cast edge weights. -/
def weightClosure (g : Graph) (K : Type) [LinearOrderedField K] : Set K :=
  (AddSubmonoid.closure ((fun q : ℚ => (q : K)) '' (weightFinset g : Set ℚ)) : Set K)

/-- Cast path costs lie in the weight closure. -/
theorem reaches_cast_mem {K : Type} [LinearOrderedField K] {g : Graph}
    {s v : Nat} {c : ℚ} (h : ReachesFrom g s v c) : ((c : K)) ∈ weightClosure g K := by
  induction h with
  | refl =>
    simp only [Rat.cast_zero]
    exact AddSubmonoid.zero_mem _
  | tail hr he ih =>
    rename_i u c0 e
    rw [Rat.cast_add]
    refine AddSubmonoid.add_mem _ ih (AddSubmonoid.subset_closure ?_)
    refine ⟨e.weight, ?_, rfl⟩
    obtain ⟨l, hl, hel⟩ := adjOf_sublists g u he
    simp only [weightFinset, List.coe_toFinset, List.mem_map, List.mem_flatten,
      Set.mem_setOf_eq]
    exact ⟨e, ⟨l, hl, hel⟩, rfl⟩

/-- The weight closure is well-founded under `<` (non-negative generators). -/
theorem weightClosure_isWF {K : Type} [LinearOrderedField K] {g : Graph}
    (hNN : g.Nonneg) : (weightClosure g K).IsWF := by
  have hfin : ((fun q : ℚ => (q : K)) '' (weightFinset g : Set ℚ)).Finite :=
    ((weightFinset g).finite_toSet).image _
  have hpos : ∀ x : K, x ∈ ((fun q : ℚ => (q : K)) '' (weightFinset g : Set ℚ)) →
      0 ≤ x := by
    rintro x ⟨q, hq, rfl⟩
    have := weightFinset_nonneg hNN q hq
    show (0 : K) ≤ (q : K)
    exact_mod_cast this
  exact (hfin.isPWO.addSubmonoid_closure hpos).isWF

/-- Node ids currently at `∞`. -/
noncomputable def topSet {K : Type} [LinearOrderedField K] (g : Graph)
    (σ : AState K) : Finset Nat :=
  @Finset.filter _ (fun v => σ.gscore v = ⊤) (Classical.decPred _) (Finset.range g.size)

theorem mem_topSet {K : Type} [LinearOrderedField K] {g : Graph} {σ : AState K}
    {v : Nat} : v ∈ topSet g σ ↔ v < g.size ∧ σ.gscore v = ⊤ := by
  unfold topSet
  rw [@Finset.mem_filter ℕ (fun v => σ.gscore v = ⊤) (Classical.decPred _)
    (Finset.range g.size) v, Finset.mem_range]

/-- Number of nodes still at `∞`. -/
noncomputable def tcount {K : Type} [LinearOrderedField K] (g : Graph)
    (σ : AState K) : Nat := (topSet g σ).card

/-- Sum of the finite gscores. -/
noncomputable def sumFin {K : Type} [LinearOrderedField K] (g : Graph)
    (σ : AState K) : K := (Finset.range g.size).sum (fun v => (σ.gscore v).untop' 0)

/-- The finite-gscore sum lies in the weight closure. -/
theorem sumFin_mem {K : Type} [LinearOrderedField K] {g : Graph} {h : Nat → K}
    {src : Nat} {σ : AState K} (inv : AInvCore g h src σ) :
    sumFin g σ ∈ weightClosure g K := by
  unfold sumFin
  refine AddSubmonoid.sum_mem _ ?_
  intro v _
  rcases inv.gval v with htop | ⟨c, hgc, hr⟩
  · rw [htop]
    simp only [WithTop.untop'_top]
    exact AddSubmonoid.zero_mem _
  · rw [hgc, WithTop.untop'_coe]
    exact reaches_cast_mem hr

/-- Measure analysis of a processing step: either a node leaves `∞`, or the
finite sum strictly drops with the `∞`-count unchanged, or nothing changed
and the heap shrank. -/
theorem process_measure {K : Type} [LinearOrderedField K] {g : Graph} {h : Nat → K}
    {src : Nat} {σ : AState K} (hWF : g.WF) (hNN : g.Nonneg)
    (inv : AInv g h src σ) {f : K} {u : Nat} {rest : List (K × Nat)}
    (hpop : popMin σ.heap = some ((f, u), rest))
    (hns : ¬σ.fscore u < ((f : K) : WithTop K)) :
    tcount g (relaxA h u (g.adjOf u) ⟨σ.gscore, σ.fscore, σ.parent, rest⟩) < tcount g σ ∨
    (tcount g (relaxA h u (g.adjOf u) ⟨σ.gscore, σ.fscore, σ.parent, rest⟩) = tcount g σ ∧
      sumFin g (relaxA h u (g.adjOf u) ⟨σ.gscore, σ.fscore, σ.parent, rest⟩) <
        sumFin g σ) ∨
    (tcount g (relaxA h u (g.adjOf u) ⟨σ.gscore, σ.fscore, σ.parent, rest⟩) = tcount g σ ∧
      sumFin g (relaxA h u (g.adjOf u) ⟨σ.gscore, σ.fscore, σ.parent, rest⟩) =
        sumFin g σ ∧
      (relaxA h u (g.adjOf u) ⟨σ.gscore, σ.fscore, σ.parent, rest⟩).heap.length + 1 =
        σ.heap.length) := by
  obtain ⟨hinv1, hgu1, hmono1, ⟨new, hheap1, hlen1, hnew1⟩, hupd1⟩ :=
    astar_process hWF hNN inv hpop hns
  have hsub : topSet g (relaxA h u (g.adjOf u) ⟨σ.gscore, σ.fscore, σ.parent, rest⟩) ⊆
      topSet g σ := by
    intro v hv
    obtain ⟨hv1, hv2⟩ := mem_topSet.1 hv
    refine mem_topSet.2 ⟨hv1, ?_⟩
    have hle := hmono1 v
    rw [hv2] at hle
    exact top_le_iff.1 hle
  by_cases htc : ∃ w, w < g.size ∧ σ.gscore w = ⊤ ∧
      (relaxA h u (g.adjOf u) ⟨σ.gscore, σ.fscore, σ.parent, rest⟩).gscore w ≠ ⊤
  · left
    obtain ⟨w, hw1, hw2, hw3⟩ := htc
    refine Finset.card_lt_card ((Finset.ssubset_iff_of_subset hsub).2
      ⟨w, mem_topSet.2 ⟨hw1, hw2⟩, ?_⟩)
    intro hmem
    exact hw3 (mem_topSet.1 hmem).2
  · push_neg at htc
    have htceq : topSet g (relaxA h u (g.adjOf u)
        ⟨σ.gscore, σ.fscore, σ.parent, rest⟩) = topSet g σ := by
      refine Finset.Subset.antisymm hsub ?_
      intro v hv
      obtain ⟨hv1, hv2⟩ := mem_topSet.1 hv
      exact mem_topSet.2 ⟨hv1, htc v hv1 hv2⟩
    by_cases hch : ∃ v, v < g.size ∧
        (relaxA h u (g.adjOf u) ⟨σ.gscore, σ.fscore, σ.parent, rest⟩).gscore v <
          σ.gscore v
    · right; left
      refine ⟨by unfold tcount; rw [htceq], ?_⟩
      obtain ⟨v, hv1, hv2⟩ := hch
      unfold sumFin
      refine Finset.sum_lt_sum ?_ ⟨v, Finset.mem_range.2 hv1, ?_⟩
      · intro i hi
        rcases inv.gval i with hq | ⟨a, hq, _⟩
        · rw [htc i (Finset.mem_range.1 hi) hq, hq]
        · rcases hinv1.gval i with hq1 | ⟨b, hq1, _⟩
          · exfalso
            have hle := hmono1 i
            rw [hq1, hq] at hle
            exact absurd hle (by simp)
          · have hle := hmono1 i
            rw [hq1, hq] at hle
            rw [hq, hq1, WithTop.untop'_coe, WithTop.untop'_coe]
            exact_mod_cast hle
      · rcases inv.gval v with hq | ⟨a, hq, _⟩
        · exfalso
          have h1 := htc v hv1 hq
          rw [hq, h1] at hv2
          exact lt_irrefl _ hv2
        · rcases hinv1.gval v with hq1 | ⟨b, hq1, _⟩
          · exfalso
            have hle := hmono1 v
            rw [hq1, hq] at hle
            exact absurd hle (by simp)
          · rw [hq, hq1] at hv2
            rw [hq, hq1, WithTop.untop'_coe, WithTop.untop'_coe]
            exact_mod_cast hv2
    · right; right
      push_neg at hch
      have hall : ∀ v, (relaxA h u (g.adjOf u)
          ⟨σ.gscore, σ.fscore, σ.parent, rest⟩).gscore v = σ.gscore v := by
        intro v
        by_contra hne
        have hlt := lt_of_le_of_ne (hmono1 v) hne
        have hne_top : (relaxA h u (g.adjOf u)
            ⟨σ.gscore, σ.fscore, σ.parent, rest⟩).gscore v ≠ ⊤ := ne_top_of_lt hlt
        have hvs : v < g.size := hinv1.gdom v hne_top
        exact absurd hlt (not_lt_of_le (hch v hvs))
      refine ⟨by unfold tcount; rw [htceq], ?_, ?_⟩
      · unfold sumFin
        exact Finset.sum_congr rfl (fun v _ => by rw [hall v])
      · have hnil : new = [] := by
          cases hnew : new with
          | nil => rfl
          | cons p new' =>
            exfalso
            have hplt := (hnew1 p (by rw [hnew]; simp)).2.2
            rw [hall p.2] at hplt
            exact lt_irrefl _ hplt
        have hlen := popMin_length hpop
        rw [hheap1, hnil, List.append_nil]
        exact hlen

/-- The A* loop always exits for sufficiently large fuel (any heuristic,
non-negative weights): each iteration either drops a node from `∞`, lowers
the finite gscore sum inside a well-founded set, or shrinks the heap. -/
theorem astar_terminates {K : Type} [LinearOrderedField K] {g : Graph} {h : Nat → K}
    {src dst : Nat} (hWF : g.WF) (hNN : g.Nonneg) :
    ∀ σ : AState K, AInv g h src σ → ∃ n, (astarLoop g h dst n σ).2 = true := by
  suffices hkey : ∀ t : ℕ, ∀ x ∈ weightClosure g K, ∀ m : ℕ, ∀ σ : AState K,
      AInv g h src σ → tcount g σ = t → sumFin g σ = x → σ.heap.length = m →
      ∃ n, (astarLoop g h dst n σ).2 = true by
    intro σ inv
    exact hkey (tcount g σ) (sumFin g σ) (sumFin_mem inv.toAInvCore) σ.heap.length σ
      inv rfl rfl rfl
  intro t
  induction t using Nat.strong_induction_on with
  | _ t iht =>
    intro x hx
    refine @Set.WellFoundedOn.induction K (fun a b => a < b) (weightClosure g K) x
      (weightClosure_isWF hNN) hx
      (fun z => ∀ m : ℕ, ∀ σ : AState K, AInv g h src σ → tcount g σ = t →
        sumFin g σ = z → σ.heap.length = m →
        ∃ n, (astarLoop g h dst n σ).2 = true) ?_
    intro y hy ihy
    intro m
    induction m using Nat.strong_induction_on with
    | _ m ihm =>
      intro σ inv ht hs hm
      rcases hpop : popMin σ.heap with _ | ⟨⟨f, u⟩, rest⟩
      · exact ⟨1, by simp [astarLoop, hpop]⟩
      · by_cases hdst : u = dst
        · refine ⟨1, ?_⟩
          simp only [astarLoop, hpop]
          rw [if_pos hdst]
        · by_cases hstale : σ.fscore u < ((f : K) : WithTop K)
          · have hrun : ∀ n, astarLoop g h dst (n + 1) σ =
                astarLoop g h dst n ⟨σ.gscore, σ.fscore, σ.parent, rest⟩ := by
              intro n
              simp only [astarLoop, hpop]
              rw [if_neg hdst, if_pos hstale]
            have hstale' : ¬NonStale σ (f, u) := fun hq =>
              absurd hq.symm (ne_of_lt hstale)
            have hlen := popMin_length hpop
            obtain ⟨n, hn⟩ := ihm rest.length (by omega)
              ⟨σ.gscore, σ.fscore, σ.parent, rest⟩ (inv.pop_stale hpop hstale')
              ht hs rfl
            exact ⟨n + 1, by rw [hrun n]; exact hn⟩
          · have hrun : ∀ n, astarLoop g h dst (n + 1) σ =
                astarLoop g h dst n (relaxA h u (g.adjOf u)
                  ⟨σ.gscore, σ.fscore, σ.parent, rest⟩) := by
              intro n
              simp only [astarLoop, hpop]
              rw [if_neg hdst, if_neg hstale]
            obtain ⟨hinv1, _, _, _, _⟩ := astar_process hWF hNN inv hpop hstale
            rcases process_measure hWF hNN inv hpop hstale with
              hlt | ⟨heq, hslt⟩ | ⟨heq, hseq, hhl⟩
            · obtain ⟨n, hn⟩ := iht
                (tcount g (relaxA h u (g.adjOf u) ⟨σ.gscore, σ.fscore, σ.parent, rest⟩))
                (by omega)
                (sumFin g (relaxA h u (g.adjOf u) ⟨σ.gscore, σ.fscore, σ.parent, rest⟩))
                (sumFin_mem hinv1.toAInvCore)
                (relaxA h u (g.adjOf u) ⟨σ.gscore, σ.fscore, σ.parent, rest⟩).heap.length
                (relaxA h u (g.adjOf u) ⟨σ.gscore, σ.fscore, σ.parent, rest⟩)
                hinv1 rfl rfl rfl
              exact ⟨n + 1, by rw [hrun n]; exact hn⟩
            · obtain ⟨n, hn⟩ := ihy
                (sumFin g (relaxA h u (g.adjOf u) ⟨σ.gscore, σ.fscore, σ.parent, rest⟩))
                (sumFin_mem hinv1.toAInvCore)
                (by rw [← hs]; exact hslt)
                (relaxA h u (g.adjOf u) ⟨σ.gscore, σ.fscore, σ.parent, rest⟩).heap.length
                (relaxA h u (g.adjOf u) ⟨σ.gscore, σ.fscore, σ.parent, rest⟩)
                hinv1 (by omega) rfl rfl
              exact ⟨n + 1, by rw [hrun n]; exact hn⟩
            · obtain ⟨n, hn⟩ := ihm
                (relaxA h u (g.adjOf u) ⟨σ.gscore, σ.fscore, σ.parent, rest⟩).heap.length
                (by omega)
                (relaxA h u (g.adjOf u) ⟨σ.gscore, σ.fscore, σ.parent, rest⟩)
                hinv1 (by omega) (by rw [hseq, hs]) rfl
              exact ⟨n + 1, by rw [hrun n]; exact hn⟩

/-- C2: for every well-formed graph with non-negative weights and every valid
reachable (source, destination) pair, given an admissible heuristic
(`h y` never exceeds any y→destination path cost, vanishing at the
destination — the spec's precondition on the Euclidean heuristic), the cost
reported by `dijkstra` at the destination and the cost reported by `astar`
at every exiting fuel agree: both are the true least path cost. -/
theorem dijkstra_astar_agree {K : Type} [LinearOrderedField K] (g : Graph)
    (h : Nat → K) (src dst : Nat) (hWF : g.WF) (hNN : g.Nonneg)
    (hsrc : src < g.size) (hdst : dst < g.size)
    (hre : ∃ c, ReachesFrom g src dst c)
    (hAdm : ∀ y c, ReachesFrom g y dst c → h y ≤ (c : K))
    (hdst0 : h dst = 0) :
    ∃ copt : ℚ, IsLeast {c : ℚ | ReachesFrom g src dst c} copt ∧
      (dijkstra g src).1.getD dst ⊤ = ((copt : ℚ) : WithTop ℚ) ∧
      (∃ n, (astar g h src dst n).2 = true) ∧
      (∀ n, (astar g h src dst n).2 = true →
        (astar g h src dst n).1.1.getD dst ⊤ = (((copt : ℚ) : K) : WithTop K)) := by
  obtain ⟨copt, hco⟩ := exists_least_cost hNN hre
  have htri : ∀ y c2, ReachesFrom g y dst c2 → h y ≤ (c2 : K) + h dst := by
    intro y c2 h2
    rw [hdst0, add_zero]
    exact hAdm y c2 h2
  refine ⟨copt, hco, ?_, ?_, ?_⟩
  · obtain ⟨copt', hco', heq⟩ :=
      ((dijkstra_correct g src hWF hNN hsrc).2.2 dst hdst).1 hre
    rwa [hco'.unique hco] at heq
  · obtain ⟨n, hn⟩ := astar_terminates hWF hNN (astarInit h src)
      (astarInit_inv g h src hsrc)
    refine ⟨n, ?_⟩
    simpa [astar, astarRun] using hn
  · intro n hex
    have hex' : (astarLoop g h dst n (astarInit h src)).2 = true := by
      simpa [astar, astarRun] using hex
    obtain ⟨hcore, hmono, hopt⟩ := astarLoop_exit hWF hNN n (astarInit h src)
      (astarInit_inv g h src hsrc) hex'
    have hg := hopt htri copt hco
    show (((List.range g.size).map (astarRun g h src dst n).1.gscore).getD dst ⊤) = _
    rw [getD_map_range _ _ hdst]
    exact hg

/-- A concrete path A→D→E→F on the sample map (so F is reachable from A). -/
theorem sample_reach_F : ∃ c, ReachesFrom sample_map 0 5 c := by
  refine ⟨0 + 5/2 + 9/5 + 3, ?_⟩
  have h1 : (⟨3, 5/2⟩ : Edge) ∈ sample_map.adjOf 0 := by decide
  have h2 : (⟨4, 9/5⟩ : Edge) ∈ sample_map.adjOf 3 := by decide
  have h3 : (⟨5, 3⟩ : Edge) ∈ sample_map.adjOf 4 := by decide
  exact ReachesFrom.tail (ReachesFrom.tail (ReachesFrom.tail ReachesFrom.refl h1) h2) h3

/-- Witness for C1: the sample map with source `A` satisfies the hypotheses
of `dijkstra_correct`. -/
theorem dijkstra_correct_witness :
    (dijkstra sample_map 0).1.length = sample_map.size ∧
    (dijkstra sample_map 0).1.getD 0 ⊤ = ((0 : ℚ) : WithTop ℚ) ∧
    (∀ v, v < sample_map.size →
      ((∃ c, ReachesFrom sample_map 0 v c) →
        ∃ copt : ℚ, IsLeast {c : ℚ | ReachesFrom sample_map 0 v c} copt ∧
          (dijkstra sample_map 0).1.getD v ⊤ = ((copt : ℚ) : WithTop ℚ)) ∧
      ((¬∃ c, ReachesFrom sample_map 0 v c) →
        (dijkstra sample_map 0).1.getD v ⊤ = ⊤) ∧
      (0 : WithTop ℚ) ≤ (dijkstra sample_map 0).1.getD v ⊤) :=
  dijkstra_correct sample_map 0 (by decide) (by decide) (by decide)

/-- Witness for C2: the sample map, source `A`, destination `F`, and the
(trivially admissible) zero heuristic satisfy the hypotheses of
`dijkstra_astar_agree`. -/
theorem dijkstra_astar_agree_witness :
    ∃ copt : ℚ, IsLeast {c : ℚ | ReachesFrom sample_map 0 5 c} copt ∧
      (dijkstra sample_map 0).1.getD 5 ⊤ = ((copt : ℚ) : WithTop ℚ) ∧
      (∃ n, (astar sample_map (fun _ => (0 : ℚ)) 0 5 n).2 = true) ∧
      (∀ n, (astar sample_map (fun _ => (0 : ℚ)) 0 5 n).2 = true →
        (astar sample_map (fun _ => (0 : ℚ)) 0 5 n).1.1.getD 5 ⊤ =
          (((copt : ℚ) : ℚ) : WithTop ℚ)) :=
  dijkstra_astar_agree sample_map (fun _ => (0 : ℚ)) 0 5 (by decide) (by decide)
    (by decide) (by decide) sample_reach_F
    (fun y c hc => by
      simp only [Rat.cast_id]
      show (0 : ℚ) ≤ c
      exact hc.cost_nonneg (by decide)) rfl

/-- On the sample map the shortest A→F cost reported by `dijkstra` is 7.3,
not the 8.0 the spec claims. -/
theorem sample_map_F_cost_not_eight :
    (dijkstra sample_map 0).1.getD 5 ⊤ = ((73/10 : ℚ) : WithTop ℚ) ∧
    (dijkstra sample_map 0).1.getD 5 ⊤ ≠ ((8 : ℚ) : WithTop ℚ) := by
  decide


/-- Euclidean heuristic values toward F on the sample map. -/
theorem heurF_vals :
    heurOf sample_map 5 0 = Real.sqrt 37 ∧ heurOf sample_map 5 1 = Real.sqrt 20 ∧
    heurOf sample_map 5 2 = Real.sqrt 5 ∧ heurOf sample_map 5 3 = Real.sqrt 26 ∧
    heurOf sample_map 5 4 = Real.sqrt 10 ∧ heurOf sample_map 5 5 = 0 := by
  have hn0 : sample_map.nodes.getD 0 node0 = ⟨0, 0, 0, "A:Station"⟩ := by decide
  have hn1 : sample_map.nodes.getD 1 node0 = ⟨1, 2, 1, "B:Market"⟩ := by decide
  have hn2 : sample_map.nodes.getD 2 node0 = ⟨2, 4, 0, "C:College"⟩ := by decide
  have hn3 : sample_map.nodes.getD 3 node0 = ⟨3, 1, -2, "D:Hospital"⟩ := by decide
  have hn4 : sample_map.nodes.getD 4 node0 = ⟨4, 3, -2, "E:Mall"⟩ := by decide
  have hn5 : sample_map.nodes.getD 5 node0 = ⟨5, 6, -1, "F:Airport"⟩ := by decide
  refine ⟨?_, ?_, ?_, ?_, ?_, ?_⟩
  · unfold heurOf euclidean
    rw [hn0, hn5]
    norm_num
  · unfold heurOf euclidean
    rw [hn1, hn5]
    norm_num
  · unfold heurOf euclidean
    rw [hn2, hn5]
    norm_num
  · unfold heurOf euclidean
    rw [hn3, hn5]
    norm_num
  · unfold heurOf euclidean
    rw [hn4, hn5]
    norm_num
  · unfold heurOf euclidean
    rw [hn5]
    norm_num


/-- One search iteration that pops a non-stale, non-destination entry
(literal-state form, used to evaluate concrete runs). -/
theorem astarLoop_step_go {K : Type} [LinearOrderedField K] {g : Graph} {h : Nat → K}
    {dst n : Nat} {G F : Nat → WithTop K} {P : Nat → Int} {H : List (K × Nat)}
    {f : K} {u : Nat} {rest : List (K × Nat)}
    (hpop : popMin H = some ((f, u), rest)) (hne : ¬u = dst)
    (hns : ¬F u < ((f : K) : WithTop K)) :
    astarLoop g h dst (n + 1) ⟨G, F, P, H⟩ =
      astarLoop g h dst n (relaxA h u (g.adjOf u) ⟨G, F, P, rest⟩) := by
  simp only [astarLoop, hpop]
  rw [if_neg hne, if_neg hns]

/-- The search iteration that pops the destination and exits (literal-state
form). -/
theorem astarLoop_step_dst {K : Type} [LinearOrderedField K] {g : Graph} {h : Nat → K}
    {dst n : Nat} {G F : Nat → WithTop K} {P : Nat → Int} {H : List (K × Nat)}
    {f : K} {rest : List (K × Nat)}
    (hpop : popMin H = some ((f, dst), rest)) :
    astarLoop g h dst (n + 1) ⟨G, F, P, H⟩ = (⟨G, F, P, rest⟩, true) := by
  simp only [astarLoop, hpop]
  rw [if_pos trivial]

/-- Relaxation step that improves the edge target (literal-state form). -/
theorem relaxA_cons_pos {K : Type} [LinearOrderedField K] {h : Nat → K} {u : Nat}
    {e : Edge} {es : List Edge} {G F : Nat → WithTop K} {P : Nat → Int}
    {H : List (K × Nat)}
    (hc : G u + ((e.weight : K) : WithTop K) < G e.tgt) :
    relaxA h u (e :: es) ⟨G, F, P, H⟩ = relaxA h u es
      ⟨Function.update G e.tgt (G u + ((e.weight : K) : WithTop K)),
        Function.update F e.tgt
          (G u + ((e.weight : K) : WithTop K) + ((h e.tgt : K) : WithTop K)),
        Function.update P e.tgt (u : Int),
        H ++ [((G u + ((e.weight : K) : WithTop K)).untop' 0 + h e.tgt, e.tgt)]⟩ := by
  simp only [relaxA]
  rw [if_pos hc]

/-- Relaxation step that leaves the edge target unchanged (literal-state
form). -/
theorem relaxA_cons_neg {K : Type} [LinearOrderedField K] {h : Nat → K} {u : Nat}
    {e : Edge} {es : List Edge} {G F : Nat → WithTop K} {P : Nat → Int}
    {H : List (K × Nat)}
    (hc : ¬G u + ((e.weight : K) : WithTop K) < G e.tgt) :
    relaxA h u (e :: es) ⟨G, F, P, H⟩ = relaxA h u es ⟨G, F, P, H⟩ := by
  simp only [relaxA]
  rw [if_neg hc]

/-- Exhausted relaxation (literal-state form). -/
theorem relaxA_nil {K : Type} [LinearOrderedField K] (h : Nat → K) (u : Nat)
    (σ : AState K) : relaxA h u [] σ = σ := rfl

theorem popMin_single {K : Type} [LinearOrder K] (a : K × Nat) :
    popMin [a] = some (a, []) := rfl

/-- Pop from a larger heap whose head is minimal. -/
theorem popMin_cons_le {K : Type} [LinearOrder K] {a m : K × Nat}
    {rest rest2 : List (K × Nat)} (hr : popMin rest = some (m, rest2))
    (hk : keyLe a m) : popMin (a :: rest) = some (a, rest) := by
  simp only [popMin, hr]
  rw [if_pos hk]

/-- Pop from a larger heap whose head is not minimal. -/
theorem popMin_cons_gt {K : Type} [LinearOrder K] {a m : K × Nat}
    {rest rest2 : List (K × Nat)} (hr : popMin rest = some (m, rest2))
    (hk : ¬keyLe a m) : popMin (a :: rest) = some (m, a :: rest2) := by
  simp only [popMin, hr]
  rw [if_neg hk]

theorem keyLe_of_lt {K : Type} [LinearOrder K] {a b : K × Nat} (h : a.1 < b.1) :
    keyLe a b := Or.inl h

theorem not_keyLe_of_lt {K : Type} [LinearOrder K] {a b : K × Nat} (h : b.1 < a.1) :
    ¬keyLe a b := by
  intro hk
  rcases hk with hk | ⟨hk, _⟩
  · exact absurd hk (not_lt_of_lt h)
  · exact absurd hk (ne_of_gt h)

/-- Euclidean heuristic values toward C on the sample map. -/
theorem heurC_vals :
    heurOf sample_map 2 0 = 4 ∧ heurOf sample_map 2 1 = Real.sqrt 5 ∧
    heurOf sample_map 2 2 = 0 ∧ heurOf sample_map 2 3 = Real.sqrt 13 ∧
    heurOf sample_map 2 4 = Real.sqrt 5 ∧ heurOf sample_map 2 5 = Real.sqrt 5 := by
  have hn0 : sample_map.nodes.getD 0 node0 = ⟨0, 0, 0, "A:Station"⟩ := by decide
  have hn1 : sample_map.nodes.getD 1 node0 = ⟨1, 2, 1, "B:Market"⟩ := by decide
  have hn2 : sample_map.nodes.getD 2 node0 = ⟨2, 4, 0, "C:College"⟩ := by decide
  have hn3 : sample_map.nodes.getD 3 node0 = ⟨3, 1, -2, "D:Hospital"⟩ := by decide
  have hn4 : sample_map.nodes.getD 4 node0 = ⟨4, 3, -2, "E:Mall"⟩ := by decide
  have hn5 : sample_map.nodes.getD 5 node0 = ⟨5, 6, -1, "F:Airport"⟩ := by decide
  refine ⟨?_, ?_, ?_, ?_, ?_, ?_⟩
  · unfold heurOf euclidean
    rw [hn0, hn2]
    rw [show ((((0 : ℚ) : ℝ) - ((4 : ℚ) : ℝ)) ^ 2 + (((0 : ℚ) : ℝ) - ((0 : ℚ) : ℝ)) ^ 2)
        = 4 ^ 2 by push_cast; norm_num]
    exact Real.sqrt_sq (by norm_num)
  · unfold heurOf euclidean
    rw [hn1, hn2]
    norm_num
  · unfold heurOf euclidean
    rw [hn2]
    norm_num
  · unfold heurOf euclidean
    rw [hn3, hn2]
    norm_num
  · unfold heurOf euclidean
    rw [hn4, hn2]
    norm_num
  · unfold heurOf euclidean
    rw [hn5, hn2]
    norm_num

/-- Concrete run of `astar` with the built-in Euclidean heuristic from A to F
on the sample map: it exits, reports cost 7.5 at F (not the optimal 7.3 —
the inadmissible heuristic misguides the search) with route A→B→C→F. -/
theorem astar_euclid_F_run :
    (astar sample_map (heurOf sample_map 5) 0 5 (searchFuel sample_map)).2 = true ∧
    (astar sample_map (heurOf sample_map 5) 0 5 (searchFuel sample_map)).1.1.getD 5 ⊤
      = ((15/2 : ℝ) : WithTop ℝ) ∧
    (astar sample_map (heurOf sample_map 5) 0 5 (searchFuel sample_map)).1.2
      = [-1, 0, 1, 0, 1, 2] := by
  obtain ⟨hv0, hv1, hv2, hv3, hv4, hv5⟩ := heurF_vals
  have hadj0 : sample_map.adjOf 0 = [⟨1, 11/5⟩, ⟨3, 5/2⟩] := by decide
  have hadj1 : sample_map.adjOf 1 = [⟨0, 11/5⟩, ⟨2, 5/2⟩, ⟨4, 3⟩, ⟨3, 17/5⟩] := by decide
  have hadj2 : sample_map.adjOf 2 = [⟨1, 5/2⟩, ⟨5, 14/5⟩] := by decide
  have hsf : searchFuel sample_map = 23 + 1 := by decide
  have hsz : sample_map.size = 6 := by decide
  have s20 : Real.sqrt 20 < Real.sqrt 26 := Real.sqrt_lt_sqrt (by norm_num) (by norm_num)
  have s5 : Real.sqrt 5 < 9/4 := by
    rw [show (9/4 : ℝ) = Real.sqrt ((9/4) ^ 2) by
      rw [Real.sqrt_sq (by norm_num)]]
    exact Real.sqrt_lt_sqrt (by norm_num) (by norm_num)
  have s26 : (5 : ℝ) < Real.sqrt 26 := (Real.lt_sqrt (by norm_num)).2 (by norm_num)
  have s10 : (3 : ℝ) < Real.sqrt 10 := (Real.lt_sqrt (by norm_num)).2 (by norm_num)
  have s20n : (0 : ℝ) ≤ Real.sqrt 20 := Real.sqrt_nonneg _
  simp only [astar]
  rw [hsz]
  rw [getD_map_range _ _ (show (5 : ℕ) < 6 by norm_num)]
  unfold astarRun astarInit
  rw [hsf]
  rw [astarLoop_step_go (popMin_single _) (by decide)
    (by rw [Function.update_same]; exact lt_irrefl _)]
  rw [hadj0]
  rw [relaxA_cons_pos (by norm_num [Function.update, ← WithTop.coe_ofNat, ← WithTop.coe_add, WithTop.untop'_coe, WithTop.coe_lt_top, WithTop.coe_lt_coe, hv0, hv1, hv2, hv3, hv4, hv5])]
  rw [relaxA_cons_pos (by norm_num [Function.update, ← WithTop.coe_ofNat, ← WithTop.coe_add, WithTop.untop'_coe, WithTop.coe_lt_top, WithTop.coe_lt_coe, hv0, hv1, hv2, hv3, hv4, hv5])]
  rw [relaxA_nil]
  simp only [List.nil_append, List.singleton_append]
  rw [astarLoop_step_go (popMin_cons_le (popMin_single _) (keyLe_of_lt (by
      norm_num [Function.update, ← WithTop.coe_ofNat, ← WithTop.coe_add, WithTop.untop'_coe, WithTop.coe_lt_top, WithTop.coe_lt_coe, hv0, hv1, hv2, hv3, hv4, hv5]
      linarith))) (by decide)
    (by
      norm_num [Function.update, ← WithTop.coe_ofNat, ← WithTop.coe_add, WithTop.untop'_coe, WithTop.coe_lt_top, WithTop.coe_lt_coe, hv0, hv1, hv2, hv3, hv4, hv5])]
  rw [hadj1]
  rw [relaxA_cons_neg (by
    norm_num [Function.update, ← WithTop.coe_ofNat, ← WithTop.coe_add, WithTop.untop'_coe, WithTop.coe_lt_top, WithTop.coe_lt_coe, hv0, hv1, hv2, hv3, hv4, hv5])]
  rw [relaxA_cons_pos (by norm_num [Function.update, ← WithTop.coe_ofNat, ← WithTop.coe_add, WithTop.untop'_coe, WithTop.coe_lt_top, WithTop.coe_lt_coe, hv0, hv1, hv2, hv3, hv4, hv5])]
  rw [relaxA_cons_pos (by norm_num [Function.update, ← WithTop.coe_ofNat, ← WithTop.coe_add, WithTop.untop'_coe, WithTop.coe_lt_top, WithTop.coe_lt_coe, hv0, hv1, hv2, hv3, hv4, hv5])]
  rw [relaxA_cons_neg (by
    norm_num [Function.update, ← WithTop.coe_ofNat, ← WithTop.coe_add, WithTop.untop'_coe, WithTop.coe_lt_top, WithTop.coe_lt_coe, hv0, hv1, hv2, hv3, hv4, hv5])]
  rw [relaxA_nil]
  simp only [List.nil_append, List.singleton_append, List.cons_append]
  rw [astarLoop_step_go (popMin_cons_gt (popMin_cons_le (popMin_single _)
      (keyLe_of_lt (by
        norm_num [Function.update, ← WithTop.coe_ofNat, ← WithTop.coe_add, WithTop.untop'_coe, WithTop.coe_lt_top, WithTop.coe_lt_coe, hv0, hv1, hv2, hv3, hv4, hv5]
        linarith)))
      (not_keyLe_of_lt (by
        norm_num [Function.update, ← WithTop.coe_ofNat, ← WithTop.coe_add, WithTop.untop'_coe, WithTop.coe_lt_top, WithTop.coe_lt_coe, hv0, hv1, hv2, hv3, hv4, hv5]
        linarith))) (by decide)
    (by
      norm_num [Function.update, ← WithTop.coe_ofNat, ← WithTop.coe_add, WithTop.untop'_coe, WithTop.coe_lt_top, WithTop.coe_lt_coe, hv0, hv1, hv2, hv3, hv4, hv5])]
  rw [hadj2]
  rw [relaxA_cons_neg (by
    norm_num [Function.update, ← WithTop.coe_ofNat, ← WithTop.coe_add, WithTop.untop'_coe, WithTop.coe_lt_top, WithTop.coe_lt_coe, hv0, hv1, hv2, hv3, hv4, hv5])]
  rw [relaxA_cons_pos (by norm_num [Function.update, ← WithTop.coe_ofNat, ← WithTop.coe_add, WithTop.untop'_coe, WithTop.coe_lt_top, WithTop.coe_lt_coe, hv0, hv1, hv2, hv3, hv4, hv5])]
  rw [relaxA_nil]
  simp only [List.nil_append, List.singleton_append, List.cons_append]
  rw [astarLoop_step_dst (popMin_cons_gt (popMin_cons_gt (popMin_single _)
      (not_keyLe_of_lt (by
        norm_num [Function.update, ← WithTop.coe_ofNat, ← WithTop.coe_add, WithTop.untop'_coe, WithTop.coe_lt_top, WithTop.coe_lt_coe, hv0, hv1, hv2, hv3, hv4, hv5]
        linarith)))
      (not_keyLe_of_lt (by
        norm_num [Function.update, ← WithTop.coe_ofNat, ← WithTop.coe_add, WithTop.untop'_coe, WithTop.coe_lt_top, WithTop.coe_lt_coe, hv0, hv1, hv2, hv3, hv4, hv5]
        linarith)))]
  refine ⟨rfl, ?_, ?_⟩
  · norm_num [Function.update, ← WithTop.coe_ofNat, ← WithTop.coe_add]
  · simp [List.range_succ, Function.update]

/-- Concrete run of `astar` with the built-in Euclidean heuristic from A to C
on the sample map: it exits, reports cost 4.7 at C with route A→B→C (here the
heuristic happens not to mislead the search). -/
theorem astar_euclid_C_run :
    (astar sample_map (heurOf sample_map 2) 0 2 (searchFuel sample_map)).2 = true ∧
    (astar sample_map (heurOf sample_map 2) 0 2 (searchFuel sample_map)).1.1.getD 2 ⊤
      = ((47/10 : ℝ) : WithTop ℝ) ∧
    (astar sample_map (heurOf sample_map 2) 0 2 (searchFuel sample_map)).1.2
      = [-1, 0, 1, 0, 1, -1] := by
  obtain ⟨hv0, hv1, hv2, hv3, hv4, hv5⟩ := heurC_vals
  have hadj0 : sample_map.adjOf 0 = [⟨1, 11/5⟩, ⟨3, 5/2⟩] := by decide
  have hadj1 : sample_map.adjOf 1 = [⟨0, 11/5⟩, ⟨2, 5/2⟩, ⟨4, 3⟩, ⟨3, 17/5⟩] := by decide
  have hsf : searchFuel sample_map = 23 + 1 := by decide
  have hsz : sample_map.size = 6 := by decide
  have s5 : Real.sqrt 5 < 9/4 := by
    rw [show (9/4 : ℝ) = Real.sqrt ((9/4) ^ 2) by
      rw [Real.sqrt_sq (by norm_num)]]
    exact Real.sqrt_lt_sqrt (by norm_num) (by norm_num)
  have s13 : (11/5 : ℝ) < Real.sqrt 13 := (Real.lt_sqrt (by norm_num)).2 (by norm_num)
  have s5n : (0 : ℝ) ≤ Real.sqrt 5 := Real.sqrt_nonneg _
  simp only [astar]
  rw [hsz]
  rw [getD_map_range _ _ (show (2 : ℕ) < 6 by norm_num)]
  unfold astarRun astarInit
  rw [hsf]
  rw [astarLoop_step_go (popMin_single _) (by decide)
    (by rw [Function.update_same]; exact lt_irrefl _)]
  rw [hadj0]
  rw [relaxA_cons_pos (by norm_num [Function.update, ← WithTop.coe_ofNat, ← WithTop.coe_add, WithTop.untop'_coe, WithTop.coe_lt_top, WithTop.coe_lt_coe, hv0, hv1, hv2, hv3, hv4, hv5])]
  rw [relaxA_cons_pos (by norm_num [Function.update, ← WithTop.coe_ofNat, ← WithTop.coe_add, WithTop.untop'_coe, WithTop.coe_lt_top, WithTop.coe_lt_coe, hv0, hv1, hv2, hv3, hv4, hv5])]
  rw [relaxA_nil]
  simp only [List.nil_append, List.singleton_append]
  rw [astarLoop_step_go (popMin_cons_le (popMin_single _) (keyLe_of_lt (by
      norm_num [Function.update, ← WithTop.coe_ofNat, ← WithTop.coe_add, WithTop.untop'_coe, WithTop.coe_lt_top, WithTop.coe_lt_coe, hv0, hv1, hv2, hv3, hv4, hv5]
      linarith))) (by decide)
    (by
      norm_num [Function.update, ← WithTop.coe_ofNat, ← WithTop.coe_add, WithTop.untop'_coe, WithTop.coe_lt_top, WithTop.coe_lt_coe, hv0, hv1, hv2, hv3, hv4, hv5])]
  rw [hadj1]
  rw [relaxA_cons_neg (by
    norm_num [Function.update, ← WithTop.coe_ofNat, ← WithTop.coe_add, WithTop.untop'_coe, WithTop.coe_lt_top, WithTop.coe_lt_coe, hv0, hv1, hv2, hv3, hv4, hv5])]
  rw [relaxA_cons_pos (by norm_num [Function.update, ← WithTop.coe_ofNat, ← WithTop.coe_add, WithTop.untop'_coe, WithTop.coe_lt_top, WithTop.coe_lt_coe, hv0, hv1, hv2, hv3, hv4, hv5])]
  rw [relaxA_cons_pos (by norm_num [Function.update, ← WithTop.coe_ofNat, ← WithTop.coe_add, WithTop.untop'_coe, WithTop.coe_lt_top, WithTop.coe_lt_coe, hv0, hv1, hv2, hv3, hv4, hv5])]
  rw [relaxA_cons_neg (by
    norm_num [Function.update, ← WithTop.coe_ofNat, ← WithTop.coe_add, WithTop.untop'_coe, WithTop.coe_lt_top, WithTop.coe_lt_coe, hv0, hv1, hv2, hv3, hv4, hv5])]
  rw [relaxA_nil]
  simp only [List.nil_append, List.singleton_append, List.cons_append]
  rw [astarLoop_step_dst (popMin_cons_gt (popMin_cons_le (popMin_single _)
      (keyLe_of_lt (by
        norm_num [Function.update, ← WithTop.coe_ofNat, ← WithTop.coe_add, WithTop.untop'_coe, WithTop.coe_lt_top, WithTop.coe_lt_coe, hv0, hv1, hv2, hv3, hv4, hv5]
        linarith)))
      (not_keyLe_of_lt (by
        norm_num [Function.update, ← WithTop.coe_ofNat, ← WithTop.coe_add, WithTop.untop'_coe, WithTop.coe_lt_top, WithTop.coe_lt_coe, hv0, hv1, hv2, hv3, hv4, hv5]
        linarith)))]
  refine ⟨rfl, ?_, ?_⟩
  · norm_num [Function.update, ← WithTop.coe_ofNat, ← WithTop.coe_add]
  · simp [List.range_succ, Function.update]

/-- C8 (amended): on the sample map, `dijkstra` from A reports cost 7.3 to F
(via A→D→E→F, not the claimed 8.0 via A→B→E→F) and 4.7 to C (via A→B→C);
`astar` with the (admissible) zero heuristic reports the same costs and
routes; the built-in Euclidean heuristic is inadmissible on this map — at D
it exceeds the true remaining cost to F, so the spec's admissibility
precondition for A* fails here — and `astar` run with it indeed returns the
suboptimal cost 7.5 to F with route A→B→C→F, while the A→C query still
returns 4.7 via A→B→C. -/
theorem sample_map_reported :
    (dijkstra sample_map 0).1.getD 5 ⊤ = ((73/10 : ℚ) : WithTop ℚ) ∧
    reconstruct_path (dijkstra sample_map 0).2 0 5 7 = some (.ret [0, 3, 4, 5]) ∧
    (dijkstra sample_map 0).1.getD 2 ⊤ = ((47/10 : ℚ) : WithTop ℚ) ∧
    reconstruct_path (dijkstra sample_map 0).2 0 2 7 = some (.ret [0, 1, 2]) ∧
    (astar sample_map (fun _ => (0 : ℚ)) 0 5 (searchFuel sample_map)).2 = true ∧
    (astar sample_map (fun _ => (0 : ℚ)) 0 5 (searchFuel sample_map)).1.1.getD 5 ⊤ =
      ((73/10 : ℚ) : WithTop ℚ) ∧
    reconstruct_path
      (astar sample_map (fun _ => (0 : ℚ)) 0 5 (searchFuel sample_map)).1.2 0 5 7 =
      some (.ret [0, 3, 4, 5]) ∧
    (astar sample_map (fun _ => (0 : ℚ)) 0 2 (searchFuel sample_map)).2 = true ∧
    (astar sample_map (fun _ => (0 : ℚ)) 0 2 (searchFuel sample_map)).1.1.getD 2 ⊤ =
      ((47/10 : ℚ) : WithTop ℚ) ∧
    reconstruct_path
      (astar sample_map (fun _ => (0 : ℚ)) 0 2 (searchFuel sample_map)).1.2 0 2 7 =
      some (.ret [0, 1, 2]) ∧
    ReachesFrom sample_map 3 5 (24/5) ∧
    ((24/5 : ℚ) : ℝ) < heurOf sample_map 5 3 ∧
    (astar sample_map (heurOf sample_map 5) 0 5 (searchFuel sample_map)).2 = true ∧
    (astar sample_map (heurOf sample_map 5) 0 5 (searchFuel sample_map)).1.1.getD 5 ⊤
      = ((15/2 : ℝ) : WithTop ℝ) ∧
    reconstruct_path
      (astar sample_map (heurOf sample_map 5) 0 5 (searchFuel sample_map)).1.2 0 5 7
      = some (.ret [0, 1, 2, 5]) ∧
    (astar sample_map (heurOf sample_map 2) 0 2 (searchFuel sample_map)).2 = true ∧
    (astar sample_map (heurOf sample_map 2) 0 2 (searchFuel sample_map)).1.1.getD 2 ⊤
      = ((47/10 : ℝ) : WithTop ℝ) ∧
    reconstruct_path
      (astar sample_map (heurOf sample_map 2) 0 2 (searchFuel sample_map)).1.2 0 2 7
      = some (.ret [0, 1, 2]) := by
  refine ⟨by decide, by decide, by decide, by decide, by decide, by decide, by decide,
    by decide, by decide, by decide, ?_, ?_,
    astar_euclid_F_run.1, astar_euclid_F_run.2.1, by rw [astar_euclid_F_run.2.2]; decide,
    astar_euclid_C_run.1, astar_euclid_C_run.2.1, by rw [astar_euclid_C_run.2.2]; decide⟩
  · have heq : (24/5 : ℚ) = 0 + 9/5 + 3 := by norm_num
    rw [heq]
    have h2 : (⟨4, 9/5⟩ : Edge) ∈ sample_map.adjOf 3 := by decide
    have h3 : (⟨5, 3⟩ : Edge) ∈ sample_map.adjOf 4 := by decide
    exact ReachesFrom.tail (ReachesFrom.tail ReachesFrom.refl h2) h3
  · have hn3 : sample_map.nodes.getD 3 node0 = ⟨3, 1, -2, "D:Hospital"⟩ := by decide
    have hn5 : sample_map.nodes.getD 5 node0 = ⟨5, 6, -1, "F:Airport"⟩ := by decide
    unfold heurOf euclidean
    rw [hn3, hn5]
    have h26 : ((1 : ℚ) : ℝ) - ((6 : ℚ) : ℝ) = -5 := by push_cast; norm_num
    have h26b : ((-2 : ℚ) : ℝ) - ((-1 : ℚ) : ℝ) = -1 := by push_cast; norm_num
    show ((24/5 : ℚ) : ℝ) < Real.sqrt ((((1 : ℚ) : ℝ) - ((6 : ℚ) : ℝ)) ^ 2 +
      (((-2 : ℚ) : ℝ) - ((-1 : ℚ) : ℝ)) ^ 2)
    rw [h26, h26b]
    have : ((-5 : ℝ)) ^ 2 + ((-1 : ℝ)) ^ 2 = 26 := by norm_num
    rw [this]
    rw [show ((24/5 : ℚ) : ℝ) = (24/5 : ℝ) by push_cast; norm_num]
    rw [Real.lt_sqrt (by norm_num)]
    norm_num

/-! ## Path cost along a reconstructed route -/

/-- Cheapest stored edge weight from `a` to `b` (`none` when no such edge). -/
def pairCost (g : Graph) (a b : Nat) : Option ℚ :=
  (((g.adjOf a).filter (fun e => e.tgt = b)).map Edge.weight).min?

/-- Sum of edge weights along consecutive nodes of a route (cheapest edge per
consecutive pair; `none` when two consecutive nodes are not linked). -/
def costAlong (g : Graph) : List Nat → Option ℚ
  | a :: b :: rest =>
    match pairCost g a b, costAlong g (b :: rest) with
    | some w, some c => some (w + c)
    | _, _ => none
  | _ => some 0

theorem minQ_mem {l : List ℚ} {a : ℚ} (h : l.min? = some a) : a ∈ l :=
  List.min?_mem (fun a b => min_choice a b) h

theorem minQ_le {l : List ℚ} {a b : ℚ} (h : l.min? = some a) (hb : b ∈ l) : a ≤ b :=
  (List.le_min?_iff (fun _ _ _ => le_min_iff) h).1 (le_refl a) b hb

/-- A `pairCost` value is the weight of an actual edge. -/
theorem pairCost_mem {g : Graph} {a b : Nat} {w : ℚ} (h : pairCost g a b = some w) :
    (⟨b, w⟩ : Edge) ∈ g.adjOf a := by
  have hm := minQ_mem h
  simp only [List.mem_map, List.mem_filter] at hm
  obtain ⟨e, ⟨he, htgt⟩, hw⟩ := hm
  have : e = ⟨b, w⟩ := by
    cases e
    simp only [decide_eq_true_eq] at htgt
    simp_all
  rwa [← this]

/-- Any edge `a → b` bounds `pairCost g a b` from above (and forces it to
exist). -/
theorem pairCost_le {g : Graph} {a : Nat} {e : Edge} (he : e ∈ g.adjOf a) :
    ∃ w, pairCost g a e.tgt = some w ∧ w ≤ e.weight := by
  have hmem : e.weight ∈ (((g.adjOf a).filter (fun e2 => e2.tgt = e.tgt)).map
      Edge.weight) := by
    simp only [List.mem_map, List.mem_filter]
    exact ⟨e, ⟨he, by simp⟩, rfl⟩
  rcases hq : (((g.adjOf a).filter (fun e2 => e2.tgt = e.tgt)).map Edge.weight).min?
    with _ | w
  · exfalso
    rcases hl : ((g.adjOf a).filter (fun e2 => e2.tgt = e.tgt)).map Edge.weight
      with _ | ⟨x, xs⟩
    · rw [hl] at hmem
      exact absurd hmem (List.not_mem_nil _)
    · rw [hl, List.min?_cons'] at hq
      cases hq
  · exact ⟨w, hq, minQ_le hq hmem⟩

/-- A route of positive `costAlong` is an actual path between its endpoints. -/
theorem costAlong_reaches (g : Graph) :
    ∀ (l : List Nat) (a : Nat) (c : ℚ), costAlong g (a :: l) = some c →
      ReachesFrom g a ((a :: l).getLast (by simp)) c := by
  intro l
  induction l with
  | nil =>
    intro a c h
    simp only [costAlong, Option.some.injEq] at h
    subst h
    exact ReachesFrom.refl
  | cons b rest ih =>
    intro a c h
    rcases hp : pairCost g a b with _ | w
    · rw [costAlong, hp] at h
      cases h
    · rcases hc : costAlong g (b :: rest) with _ | c2
      · rw [costAlong, hp, hc] at h
        cases h
      · rw [costAlong, hp, hc] at h
        simp only [Option.some.injEq] at h
        subst h
        have h1 : ReachesFrom g a b w := by
          have := ReachesFrom.single (pairCost_mem hp)
          simpa using this
        have h2 := ih b c2 hc
        have h3 := h1.trans h2
        have hl : ((a :: b :: rest).getLast (by simp)) =
            ((b :: rest).getLast (by simp)) := by
          rw [List.getLast_cons]
        rw [hl]
        exact h3

/-! ## The predecessor chain of a search state -/

/-- A maximal backward predecessor chain: from its head, follow `parent`
links down to the source (which ends every chain). -/
inductive ParentWalk {K : Type} [LinearOrderedField K] (σ : AState K) (src : Nat) :
    List Nat → Prop
  | base : ParentWalk σ src [src]
  | step {v u : Nat} {tl : List Nat} : v ≠ src → σ.parent v = (u : Int) →
      ParentWalk σ src (u :: tl) → ParentWalk σ src (v :: u :: tl)

/-- Number of in-range nodes with strictly smaller gscore (part of the
termination measure of the predecessor chain). -/
noncomputable def countLT {K : Type} [LinearOrderedField K] (g : Graph)
    (σ : AState K) (v : Nat) : Nat :=
  (@Finset.filter _ (fun w => σ.gscore w < σ.gscore v) (Classical.decPred _)
    (Finset.range g.size)).card

theorem mem_countLT {K : Type} [LinearOrderedField K] {g : Graph} {σ : AState K}
    {v w : Nat} : w ∈ (@Finset.filter _ (fun w => σ.gscore w < σ.gscore v)
      (Classical.decPred _) (Finset.range g.size)) ↔
      w < g.size ∧ σ.gscore w < σ.gscore v := by
  rw [@Finset.mem_filter ℕ (fun w => σ.gscore w < σ.gscore v) (Classical.decPred _)
    (Finset.range g.size) w, Finset.mem_range]

/-- Facts carried by one predecessor link: the parent is in range with a
finite gscore, an actual edge witnesses the link with telescoping costs, and
the chain measure strictly decreases. -/
theorem link_facts {K : Type} [LinearOrderedField K] {g : Graph} {h : Nat → K}
    {src : Nat} {σ : AState K} (hNN : g.Nonneg) (inv : AInvCore g h src σ)
    {stamp : Nat → Nat} {B : Nat} (hB : ∀ v, stamp v < B)
    (hlink : ∀ v u : Nat, σ.parent v = (u : Int) → u < g.size ∧ v < g.size ∧ v ≠ src ∧
      ∃ e ∈ g.adjOf u, e.tgt = v ∧
        σ.gscore u + ((e.weight : K) : WithTop K) ≤ σ.gscore v ∧
        (σ.gscore u + ((e.weight : K) : WithTop K) = σ.gscore v → stamp u < stamp v))
    {v u : Nat} (hp : σ.parent v = (u : Int)) {cv : ℚ}
    (hcv : σ.gscore v = ((cv : K) : WithTop K)) :
    u < g.size ∧
    ∃ cu : ℚ, σ.gscore u = ((cu : K) : WithTop K) ∧
      (∃ e ∈ g.adjOf u, e.tgt = v ∧ cu + e.weight ≤ cv) ∧
      countLT g σ u * B + stamp u < countLT g σ v * B + stamp v := by
  obtain ⟨huS, hvS, hvsrc, e, he, het, hle, htight⟩ := hlink v u hp
  have h0w : (0 : WithTop K) ≤ ((e.weight : K) : WithTop K) := by
    have := weight_nonneg hNN he
    exact_mod_cast this
  rcases inv.gval u with htop | ⟨cu, hgcu, _⟩
  · exfalso
    rw [htop, WithTop.top_add, hcv] at hle
    exact absurd hle (by simp)
  refine ⟨huS, cu, hgcu, ⟨e, he, het, ?_⟩, ?_⟩
  · have hle' := hle
    rw [hgcu, hcv, ratCast_add_top] at hle'
    exact_mod_cast hle'
  · by_cases hlt : σ.gscore u < σ.gscore v
    · have hsub : (@Finset.filter _ (fun w => σ.gscore w < σ.gscore u)
          (Classical.decPred _) (Finset.range g.size)) ⊆
          (@Finset.filter _ (fun w => σ.gscore w < σ.gscore v)
            (Classical.decPred _) (Finset.range g.size)) := by
        intro w hw
        obtain ⟨hw1, hw2⟩ := mem_countLT.1 hw
        exact mem_countLT.2 ⟨hw1, lt_trans hw2 hlt⟩
      have hcnt : countLT g σ u < countLT g σ v := by
        unfold countLT
        refine Finset.card_lt_card ((Finset.ssubset_iff_of_subset hsub).2
          ⟨u, mem_countLT.2 ⟨huS, hlt⟩, ?_⟩)
        intro hmem
        exact lt_irrefl _ (mem_countLT.1 hmem).2
      calc countLT g σ u * B + stamp u < countLT g σ u * B + B := by
            have := hB u
            omega
        _ = (countLT g σ u + 1) * B := by ring
        _ ≤ countLT g σ v * B := Nat.mul_le_mul_right B hcnt
        _ ≤ countLT g σ v * B + stamp v := Nat.le_add_right _ _
    · have h1 : σ.gscore u ≤ σ.gscore v :=
        le_trans (le_add_of_nonneg_right h0w) hle
      have heq : σ.gscore u = σ.gscore v := le_antisymm h1 (not_lt.1 hlt)
      have hceq : countLT g σ u = countLT g σ v := by
        unfold countLT
        congr 1
        refine Finset.Subset.antisymm ?_ ?_ <;> intro w hw
        · obtain ⟨hw1, hw2⟩ := mem_countLT.1 hw
          exact mem_countLT.2 ⟨hw1, heq ▸ hw2⟩
        · obtain ⟨hw1, hw2⟩ := mem_countLT.1 hw
          exact mem_countLT.2 ⟨hw1, heq.symm ▸ hw2⟩
      have htq : σ.gscore u + ((e.weight : K) : WithTop K) = σ.gscore v :=
        le_antisymm hle (by rw [← heq]; exact le_add_of_nonneg_right h0w)
      rw [hceq]
      exact Nat.add_lt_add_left (htight htq) _

/-- Every node with a finite gscore starts a predecessor chain reaching the
source through distinct in-range nodes. -/
theorem walk_exists {K : Type} [LinearOrderedField K] {g : Graph} {h : Nat → K}
    {src : Nat} {σ : AState K} (hNN : g.Nonneg) (inv : AInvCore g h src σ)
    {stamp : Nat → Nat} {B : Nat} (hB : ∀ v, stamp v < B)
    (hlink : ∀ v u : Nat, σ.parent v = (u : Int) → u < g.size ∧ v < g.size ∧ v ≠ src ∧
      ∃ e ∈ g.adjOf u, e.tgt = v ∧
        σ.gscore u + ((e.weight : K) : WithTop K) ≤ σ.gscore v ∧
        (σ.gscore u + ((e.weight : K) : WithTop K) = σ.gscore v → stamp u < stamp v)) :
    ∀ n v, v < g.size → countLT g σ v * B + stamp v = n →
      ∀ cv : ℚ, σ.gscore v = ((cv : K) : WithTop K) →
      ∃ L, ParentWalk σ src (v :: L) ∧ (v :: L).Nodup ∧
        ∀ x ∈ v :: L, x < g.size ∧ countLT g σ x * B + stamp x ≤ n := by
  intro n
  induction n using Nat.strong_induction_on with
  | _ n ih =>
    intro v hv hn cv hcv
    by_cases hvsrc : v = src
    · subst hvsrc
      exact ⟨[], ParentWalk.base, List.nodup_singleton v,
        by intro x hx; simp only [List.mem_singleton] at hx; subst hx; omega⟩
    · have hne : σ.parent v ≠ -1 := by
        intro hq
        have := (inv.parentNone v hvsrc).1 hq
        rw [hcv] at this
        exact WithTop.coe_ne_top this
      rcases inv.parentShape v with hq | ⟨u, hq⟩
      · exact absurd hq hne
      obtain ⟨huS, cu, hgcu, _, hmeas⟩ := link_facts hNN inv hB hlink hq hcv
      obtain ⟨L, hwalk, hnodup, hbound⟩ :=
        ih (countLT g σ u * B + stamp u) (by omega) u huS rfl cu hgcu
      refine ⟨u :: L, ParentWalk.step hvsrc hq hwalk, ?_, ?_⟩
      · refine List.nodup_cons.2 ⟨?_, hnodup⟩
        intro hvin
        have := (hbound v hvin).2
        omega
      · intro x hx
        rcases List.mem_cons.1 hx with rfl | hx2
        · exact ⟨hv, by omega⟩
        · have := hbound x hx2
          exact ⟨this.1, by omega⟩

/-- Predecessor chains end at the source. -/
theorem ParentWalk.getLast_src {K : Type} [LinearOrderedField K] {σ : AState K}
    {src : Nat} : ∀ {L : List Nat}, ParentWalk σ src L → L.getLast? = some src := by
  intro L hw
  induction hw with
  | base => rfl
  | step hv hp hw ih =>
    rw [List.getLast?_cons_cons]
    exact ih

/-- Appending one node to a costed route adds the connecting pair cost. -/
theorem costAlong_snoc (g : Graph) :
    ∀ (X : List Nat) (u v : Nat) (c w : ℚ), X.getLast? = some u →
      costAlong g X = some c → pairCost g u v = some w →
      costAlong g (X ++ [v]) = some (c + w) := by
  intro X
  induction X with
  | nil =>
    intro u v c w hlast
    cases hlast
  | cons a X' ih =>
    intro u v c w hlast hcost hpair
    cases X' with
    | nil =>
      simp only [List.getLast?_singleton, Option.some.injEq] at hlast
      simp only [costAlong, Option.some.injEq] at hcost
      subst hlast
      subst hcost
      rw [List.singleton_append]
      simp only [costAlong, hpair]
      rw [zero_add, add_zero]
    | cons b X'' =>
      rcases hp : pairCost g a b with _ | w1
      · rw [costAlong, hp] at hcost
        cases hcost
      · rcases hc2 : costAlong g (b :: X'') with _ | c2
        · rw [costAlong, hp, hc2] at hcost
          cases hcost
        · rw [costAlong, hp, hc2] at hcost
          simp only [Option.some.injEq] at hcost
          subst hcost
          have hlast' : (b :: X'').getLast? = some u := by
            rw [← List.getLast?_cons_cons]
            exact hlast
          have hrec := ih u v c2 w hlast' hc2 hpair
          show costAlong g (a :: ((b :: X'') ++ [v])) = some (w1 + c2 + w)
          rw [List.cons_append] at hrec ⊢
          rw [costAlong, hp, hrec]
          rw [add_assoc]

/-- Python indexing of a range-map list at an in-range non-negative index. -/
theorem pyIndex_map_range {α : Type} (f : Nat → α) {n v : Nat} (hv : v < n) :
    pyIndex ((List.range n).map f) (v : Int) = .ok (f v) := by
  unfold pyIndex
  have h1 : ¬((v : Int) < 0) := by omega
  rw [if_neg h1, if_pos (by omega : (0 : Int) ≤ (v : Int))]
  have h2 : ((v : Int)).toNat = v := Int.toNat_natCast v
  rw [h2]
  have h3 : v < ((List.range n).map f).length := by simp [hv]
  rw [List.get?_eq_get h3]
  simp

/-- The reversed predecessor chain is a costed route whose total is bounded
by the head's gscore (telescoping the link inequalities). -/
theorem walk_cost {K : Type} [LinearOrderedField K] {g : Graph} {h : Nat → K}
    {src : Nat} {σ : AState K} (hNN : g.Nonneg) (inv : AInvCore g h src σ)
    {stamp : Nat → Nat} {B : Nat} (hB : ∀ v, stamp v < B)
    (hlink : ∀ v u : Nat, σ.parent v = (u : Int) → u < g.size ∧ v < g.size ∧ v ≠ src ∧
      ∃ e ∈ g.adjOf u, e.tgt = v ∧
        σ.gscore u + ((e.weight : K) : WithTop K) ≤ σ.gscore v ∧
        (σ.gscore u + ((e.weight : K) : WithTop K) = σ.gscore v → stamp u < stamp v)) :
    ∀ L, ParentWalk σ src L → ∀ v, L.head? = some v →
      ∀ cv : ℚ, σ.gscore v = ((cv : K) : WithTop K) →
      ∃ cL : ℚ, costAlong g L.reverse = some cL ∧ cL ≤ cv := by
  intro L hw
  induction hw with
  | base =>
    intro v hv cv hcv
    simp only [List.head?_cons, Option.some.injEq] at hv
    subst hv
    refine ⟨0, by simp [costAlong], ?_⟩
    have h0 := inv.src0
    rw [hcv] at h0
    have h1 : (cv : K) = (0 : K) := by exact_mod_cast h0
    have h2 : cv = 0 := by exact_mod_cast h1
    exact le_of_eq h2.symm
  | step hvsrc hp hw ih =>
    rename_i v u tl
    intro v' hv' cv hcv
    simp only [List.head?_cons, Option.some.injEq] at hv'
    subst hv'
    obtain ⟨huS, cu, hgcu, ⟨e, he, het, hleq⟩, _⟩ :=
      link_facts hNN inv hB hlink hp hcv
    obtain ⟨cL', hcost', hle'⟩ := ih u rfl cu hgcu
    obtain ⟨pw, hpw, hpwle⟩ := pairCost_le he
    rw [het] at hpw
    have hlast : (u :: tl).reverse.getLast? = some u := by
      rw [List.getLast?_reverse]
      rfl
    have hcost2 := costAlong_snoc g (u :: tl).reverse u v cL' pw hlast hcost' hpw
    rw [List.reverse_cons]
    exact ⟨cL' + pw, hcost2, by linarith⟩

/-- The reconstruction loop follows a predecessor chain, accumulating its
nodes (via the projected parent list). -/
theorem walk_recon {K : Type} [LinearOrderedField K] {g : Graph} {σ : AState K}
    {src : Nat} :
    ∀ L, ParentWalk σ src L → (∀ x ∈ L, x < g.size) →
      ∀ fuel, L.length ≤ fuel → ∀ (v : Nat), L.head? = some v → ∀ acc,
        reconLoop ((List.range g.size).map σ.parent) (src : Int) fuel (v : Int) acc =
          some (.ret (acc ++ L.map (fun n : Nat => (n : Int)))) := by
  intro L hw
  induction hw with
  | base =>
    intro hx fuel hfuel v hv acc
    simp only [List.head?_cons, Option.some.injEq] at hv
    subst hv
    cases fuel with
    | zero => simp at hfuel
    | succ m =>
      simp only [reconLoop]
      simp
  | step hvsrc hp hw ih =>
    rename_i v u tl
    intro hx fuel hfuel v' hv' acc
    simp only [List.head?_cons, Option.some.injEq] at hv'
    subst hv'
    cases fuel with
    | zero => simp at hfuel
    | succ m =>
      have hvS : v < g.size := hx v (by simp)
      simp only [reconLoop]
      rw [if_neg (by omega : ¬(v : Int) = -1),
        if_neg (by omega : ¬(v : Int) = (src : Int))]
      rw [pyIndex_map_range σ.parent hvS, hp]
      show reconLoop ((List.range g.size).map σ.parent) (src : Int) m (u : Int)
        (acc ++ [(v : Int)]) = _
      have hrec := ih (fun x hx2 => hx x (List.mem_cons_of_mem _ hx2)) m
        (by simp only [List.length_cons] at hfuel ⊢; omega) u rfl
        (acc ++ [(v : Int)])
      rw [hrec]
      congr 1
      simp

/-- From any invariant state whose destination gscore equals the least path
cost, `reconstruct_path` on the projected parent array returns a route whose
cost along consecutive nodes is exactly that least cost. -/
theorem state_route {K : Type} [LinearOrderedField K] {g : Graph} {h : Nat → K}
    {src : Nat} {σ : AState K} (hNN : g.Nonneg)
    (inv : AInvCore g h src σ) {dst : Nat} (hdst : dst < g.size)
    {copt : ℚ} (hco : IsLeast {c : ℚ | ReachesFrom g src dst c} copt)
    (hg : σ.gscore dst = ((copt : K) : WithTop K)) :
    ∃ route : List Int,
      reconstruct_path ((List.range g.size).map σ.parent) (src : Int) (dst : Int)
        (g.size + 1) = some (.ret route) ∧
      costAlong g (route.map Int.toNat) = some copt := by
  obtain ⟨stamp, B, hB, hlink⟩ := inv.parentLink
  obtain ⟨L, hwalk, hnodup, hboundall⟩ :=
    walk_exists hNN inv hB hlink (countLT g σ dst * B + stamp dst) dst hdst rfl
      copt hg
  have hxlt : ∀ x ∈ dst :: L, x < g.size := fun x hx => (hboundall x hx).1
  have hlen : (dst :: L).length ≤ g.size := by
    have hcard : (dst :: L).toFinset.card = (dst :: L).length :=
      List.toFinset_card_of_nodup hnodup
    have hsub : (dst :: L).toFinset ⊆ Finset.range g.size := by
      intro x hx
      rw [List.mem_toFinset] at hx
      exact Finset.mem_range.2 (hxlt x hx)
    have := Finset.card_le_card hsub
    rw [hcard, Finset.card_range] at this
    exact this
  have hloop := walk_recon (dst :: L) hwalk hxlt (g.size + 1) (by omega) dst rfl []
  have hlast : (dst :: L).getLast? = some src := hwalk.getLast_src
  obtain ⟨cL, hcost, hcle⟩ := walk_cost hNN inv hB hlink (dst :: L) hwalk dst rfl
    copt hg
  -- the reversed walk is a genuine path src → dst, so its cost is ≥ copt
  have hR_ne : (dst :: L).reverse ≠ [] := by simp
  obtain ⟨a, R', hRr⟩ := List.exists_cons_of_ne_nil hR_ne
  have hhead : (dst :: L).reverse.head? = some src := by
    rw [List.head?_reverse]
    exact hlast
  have ha : a = src := by
    rw [hRr] at hhead
    simpa using hhead
  have hreach : ReachesFrom g src dst cL := by
    have hcost' : costAlong g (a :: R') = some cL := by rw [← hRr]; exact hcost
    have := costAlong_reaches g R' a cL hcost'
    have hlastR : ((a :: R').getLast (by simp)) = dst := by
      have h1 : (a :: R').getLast? = some dst := by
        rw [← hRr, List.getLast?_reverse]
        rfl
      rw [List.getLast?_eq_getLast (a :: R') (by simp)] at h1
      simpa using h1
    rw [hlastR, ha] at this
    exact this
  have hceq : cL = copt := le_antisymm hcle (hco.2 hreach)
  refine ⟨((dst :: L).map (fun n : Nat => (n : Int))).reverse, ?_, ?_⟩
  · unfold reconstruct_path
    rw [hloop]
    have hh2 : ((dst :: L).map (fun n : Nat => (n : Int))).reverse.head? =
        some (src : Int) := by
      simp only [List.head?_reverse, List.getLast?_map, hlast, Option.map_some]
      rfl
    simp only [List.nil_append]
    rw [if_pos hh2]
  · have hmap : (((dst :: L).map (fun n : Nat => (n : Int))).reverse.map Int.toNat) =
        (dst :: L).reverse := by
      rw [List.map_reverse, List.map_map]
      congr 1
      refine List.map_congr_left ?_ |>.trans (List.map_id _)
      intro x hx
      simp
    rw [hmap, hcost, hceq]

/-- C3: for every well-formed graph with non-negative weights and valid
reachable (source, destination) query, `reconstruct_path` on the predecessor
array produced by `dijkstra` — and, under the admissibility precondition the
spec places on the heuristic, by `astar` at any exiting fuel — returns a
route whose edge-weight sum along consecutive nodes equals the scalar cost
reported at the destination (both being the least path cost). -/
theorem reconstruct_cost_eq {K : Type} [LinearOrderedField K] (g : Graph)
    (h : Nat → K) (src dst : Nat) (hWF : g.WF) (hNN : g.Nonneg)
    (hsrc : src < g.size) (hdst : dst < g.size)
    (hre : ∃ c, ReachesFrom g src dst c)
    (hAdm : ∀ y c, ReachesFrom g y dst c → h y ≤ (c : K))
    (hdst0 : h dst = 0) :
    ∃ copt : ℚ, IsLeast {c : ℚ | ReachesFrom g src dst c} copt ∧
      (∃ route : List Int,
        reconstruct_path (dijkstra g src).2 (src : Int) (dst : Int) (g.size + 1) =
          some (.ret route) ∧
        costAlong g (route.map Int.toNat) = some copt ∧
        (dijkstra g src).1.getD dst ⊤ = ((copt : ℚ) : WithTop ℚ)) ∧
      (∀ n, (astar g h src dst n).2 = true →
        ∃ route : List Int,
          reconstruct_path (astar g h src dst n).1.2 (src : Int) (dst : Int)
            (g.size + 1) = some (.ret route) ∧
          costAlong g (route.map Int.toNat) = some copt ∧
          (astar g h src dst n).1.1.getD dst ⊤ = (((copt : ℚ) : K) : WithTop K)) := by
  obtain ⟨copt, hco⟩ := exists_least_cost hNN hre
  refine ⟨copt, hco, ?_, ?_⟩
  · obtain ⟨σF, ⟨h1, h2, h3, h4⟩, hinv, hheap, hopt⟩ := dijkstra_final hWF hNN hsrc
    have hgd : σF.gscore dst = ((copt : ℚ) : WithTop ℚ) := by
      have hle := hopt dst copt hco.1
      rcases hinv.gval dst with htop | ⟨c2, hg2, hr2⟩
      · rw [htop] at hle
        exact absurd hle (by simp)
      · simp only [Rat.cast_id] at hg2
        have ha : c2 ≤ copt := by
          rw [hg2] at hle
          exact_mod_cast hle
        have hb : copt ≤ c2 := hco.2 hr2
        rw [hg2, le_antisymm ha hb]
    obtain ⟨route, hrec, hcost⟩ := state_route hNN hinv.toAInvCore hdst hco
      (by simp only [Rat.cast_id]; exact hgd)
    have hproj2 : (dijkstra g src).2 = (List.range g.size).map σF.parent := by
      show (List.range g.size).map
        (dijkstraLoop g (searchFuel g) (dijkstraInit src)).parent = _
      rw [h2]
    refine ⟨route, ?_, hcost, ?_⟩
    · rw [hproj2]
      exact hrec
    · have hp1 : (dijkstra g src).1.getD dst ⊤ =
          (dijkstraLoop g (searchFuel g) (dijkstraInit src)).dist dst := by
        unfold dijkstra
        exact getD_map_range _ _ hdst
      rw [hp1, h1, hgd]
  · intro n hex
    have hex' : (astarLoop g h dst n (astarInit h src)).2 = true := by
      simpa [astar, astarRun] using hex
    have htri : ∀ y c2, ReachesFrom g y dst c2 → h y ≤ (c2 : K) + h dst := by
      intro y c2 h2
      rw [hdst0, add_zero]
      exact hAdm y c2 h2
    obtain ⟨hcore, hmono, hoptf⟩ := astarLoop_exit hWF hNN n (astarInit h src)
      (astarInit_inv g h src hsrc) hex'
    have hg := hoptf htri copt hco
    obtain ⟨route, hrec, hcost⟩ := state_route hNN hcore hdst hco hg
    refine ⟨route, ?_, hcost, ?_⟩
    · show reconstruct_path
        ((List.range g.size).map (astarRun g h src dst n).1.parent) _ _ _ = _
      exact hrec
    · show (((List.range g.size).map (astarRun g h src dst n).1.gscore).getD dst ⊤) = _
      rw [getD_map_range _ _ hdst]
      exact hg

/-- Witness for C3: the sample map, source `A`, destination `F`, and the
(admissible) zero heuristic satisfy the hypotheses of `reconstruct_cost_eq`. -/
theorem reconstruct_cost_eq_witness :
    ∃ copt : ℚ, IsLeast {c : ℚ | ReachesFrom sample_map 0 5 c} copt ∧
      (∃ route : List Int,
        reconstruct_path (dijkstra sample_map 0).2 ((0 : Nat) : Int) ((5 : Nat) : Int)
          (sample_map.size + 1) = some (.ret route) ∧
        costAlong sample_map (route.map Int.toNat) = some copt ∧
        (dijkstra sample_map 0).1.getD 5 ⊤ = ((copt : ℚ) : WithTop ℚ)) ∧
      (∀ n, (astar sample_map (fun _ => (0 : ℚ)) 0 5 n).2 = true →
        ∃ route : List Int,
          reconstruct_path (astar sample_map (fun _ => (0 : ℚ)) 0 5 n).1.2
            ((0 : Nat) : Int) ((5 : Nat) : Int) (sample_map.size + 1) =
            some (.ret route) ∧
          costAlong sample_map (route.map Int.toNat) = some copt ∧
          (astar sample_map (fun _ => (0 : ℚ)) 0 5 n).1.1.getD 5 ⊤ =
            (((copt : ℚ) : ℚ) : WithTop ℚ)) :=
  reconstruct_cost_eq sample_map (fun _ => (0 : ℚ)) 0 5 (by decide) (by decide)
    (by decide) (by decide) sample_reach_F
    (fun y c hc => by
      simp only [Rat.cast_id]
      show (0 : ℚ) ≤ c
      exact hc.cost_nonneg (by decide)) rfl
